import Mathlib

/-!
A verification development for the `gitnotekv` library (`src/gitnotekv.py`),
which uses Git notes as a key-value store.  Python values that can appear in
the JSON documents are modelled by `PyVal` (floating-point numbers are outside
the model), Python dictionaries with string keys by association lists in
insertion order, and the external `git` tool by an explicit state
(`GitState`) plus a trace of issued commands (`GitCmd`).  Exceptions are
modelled with `Except` over the `PyErr` error type; an operation that raises
before mutating returns the unchanged state alongside the error.
-/

namespace GitNoteKV

/-- JSON-compatible Python values (str, int, bool, None, list, dict).
Python floats are outside the model. Dicts are association lists in
insertion order with string keys, as JSON objects and the library require. -/
inductive PyVal where
  | str (s : String)
  | int (n : Int)
  | bool (b : Bool)
  | none
  | list (xs : List PyVal)
  | dict (kvs : List (String × PyVal))

/-- The exceptions thrown by `gitnotekv.py` and the Python runtime semantics
it relies on. `valueError` is raised by the string-key guards, `keyError` by
dict lookup/delete of an absent key, `typeError` by hashing an unhashable
key, and `gitCommandFailed` models an `sh.ErrorReturnCode` escaping a git
invocation. -/
inductive PyErr where
  | valueError
  | keyError
  | typeError
  | malformedNoteData
  | gitReferenceDoesNotExist
  | repoDoesNotExist
  | gitCommandFailed
  deriving DecidableEq

/-- First-match lookup in an association list with string keys:
Python `d[k]` / `k in d` for a dict with (unique) string keys. -/
def lookupStr {α : Type} : List (String × α) → String → Option α
  | [], _ => Option.none
  | (k, v) :: t, key => if k = key then some v else lookupStr t key

/-- Python `d[k] = v` on a string-keyed dict: replace the value at an
existing key in place, otherwise append the new pair (insertion order). -/
def dictInsert : List (String × PyVal) → String → PyVal → List (String × PyVal)
  | [], k, v => [(k, v)]
  | (k', v') :: t, k, v =>
    if k' = k then (k, v) :: t else (k', v') :: dictInsert t k v

/-- Python `del d[k]` on a string-keyed dict once the key is known present:
remove the first pair with that key. -/
def dictRemove : List (String × PyVal) → String → List (String × PyVal)
  | [], _ => []
  | (k', v') :: t, k => if k' = k then t else (k', v') :: dictRemove t k

/-- Whether a `PyVal` is a Python `str`, as tested by
`isinstance(key, str)` in `__getitem__` / `__setitem__`. -/
def PyVal.isStr : PyVal → Bool
  | .str _ => true
  | _ => false

/-- Whether a `PyVal` is a Python `dict`, as tested by
`isinstance(parsed, dict)` in `RepoRef.__init__`. -/
def PyVal.isDict : PyVal → Bool
  | .dict _ => true
  | _ => false

/-- Whether a `PyVal` is hashable in Python (lists and dicts are not);
dict membership/deletion raise `TypeError` on unhashable keys. -/
def PyVal.hashable : PyVal → Bool
  | .list _ => false
  | .dict _ => false
  | _ => true

/-! ### JSON encoding and decoding

The library persists documents with `json.dumps` and reads them back with
`json.loads`.  Both are modelled concretely at the character level, matching
CPython's defaults: `dumps` uses separators `", "` and `": "` and
`ensure_ascii=True` escaping; `loads` accepts standard JSON with arbitrary
inter-token whitespace, rejects raw control characters in strings, rejects
leading zeros, and builds objects by successive key assignment (a later
duplicate key overwrites the value at the first key's position).  Number
literals with a fraction or exponent are floats, which are outside the value
model, so the decoder rejects them. -/

/-- Decimal digit characters of a natural number, most significant first
(the digits of Python `str(n)`). -/
def natToChars (n : Nat) : List Char :=
  if n < 10 then [Char.ofNat (48 + n)]
  else natToChars (n / 10) ++ [Char.ofNat (48 + n % 10)]
  termination_by n
  decreasing_by exact Nat.div_lt_self (by omega) (by omega)

/-- Lowercase hexadecimal digit character for `n < 16`. -/
def hexDigitChar (n : Nat) : Char :=
  if n < 10 then Char.ofNat (48 + n) else Char.ofNat (87 + n)

/-- Four lowercase hex digits of `n < 0x10000`, as in a `\uXXXX` escape. -/
def hex4 (n : Nat) : List Char :=
  [hexDigitChar (n / 4096 % 16), hexDigitChar (n / 256 % 16),
   hexDigitChar (n / 16 % 16), hexDigitChar (n % 16)]

/-- CPython `json.dumps` escaping of one character (`ensure_ascii=True`):
short escapes for the two-character sequences, `\uXXXX` for other control
characters and all non-ASCII characters, surrogate pairs above `0xFFFF`;
characters `0x20`–`0x7E` other than `"` and `\` are emitted raw. -/
def escChar (c : Char) : List Char :=
  if c = '"' then ['\\', '"']
  else if c = '\\' then ['\\', '\\']
  else if c = '\n' then ['\\', 'n']
  else if c = '\r' then ['\\', 'r']
  else if c = '\t' then ['\\', 't']
  else if c.toNat = 8 then ['\\', 'b']
  else if c.toNat = 12 then ['\\', 'f']
  else if c.toNat < 32 then '\\' :: 'u' :: hex4 c.toNat
  else if c.toNat < 127 then [c]
  else if c.toNat < 65536 then '\\' :: 'u' :: hex4 c.toNat
  else '\\' :: 'u' :: hex4 (55296 + (c.toNat - 65536) / 1024) ++
       '\\' :: 'u' :: hex4 (56320 + (c.toNat - 65536) % 1024)

/-- Escaped character data of a string literal body (between the quotes). -/
def escStr (s : String) : List Char :=
  (s.data.map escChar).flatten

mutual

/-- Characters of `json.dumps(v)` with CPython's default separators. -/
def ser : PyVal → List Char
  | .str s => '"' :: escStr s ++ ['"']
  | .int n => if n < 0 then '-' :: natToChars n.natAbs else natToChars n.toNat
  | .bool b => if b then ['t', 'r', 'u', 'e'] else ['f', 'a', 'l', 's', 'e']
  | .none => ['n', 'u', 'l', 'l']
  | .list [] => ['[', ']']
  | .list (x :: xs) => '[' :: (ser x ++ serTail xs) ++ [']']
  | .dict [] => ['\x7b', '\x7d']
  | .dict (kv :: kvs) => '\x7b' :: (serMember kv ++ serMemberTail kvs) ++ ['\x7d']

/-- `", "`-separated serialization of the remaining array elements. -/
def serTail : List PyVal → List Char
  | [] => []
  | x :: xs => ',' :: ' ' :: ser x ++ serTail xs

/-- Serialization of one object member, `"key": value`. -/
def serMember : String × PyVal → List Char
  | (k, v) => '"' :: escStr k ++ '"' :: ':' :: ' ' :: ser v

/-- `", "`-separated serialization of the remaining object members. -/
def serMemberTail : List (String × PyVal) → List Char
  | [] => []
  | kv :: kvs => ',' :: ' ' :: serMember kv ++ serMemberTail kvs

end

/-- `json.dumps(v)` as a string. -/
def dumps (v : PyVal) : String := ⟨ser v⟩

mutual

/-- An abstract size of a value, used as a fuel bound for the decoder. -/
def size : PyVal → Nat
  | .str _ => 1
  | .int _ => 1
  | .bool _ => 1
  | .none => 1
  | .list xs => 1 + sizeElems xs
  | .dict kvs => 1 + sizeMembers kvs

/-- Combined size of array elements, one extra unit per element. -/
def sizeElems : List PyVal → Nat
  | [] => 0
  | x :: xs => size x + 1 + sizeElems xs

/-- Combined size of object members, one extra unit per member. -/
def sizeMembers : List (String × PyVal) → Nat
  | [] => 0
  | kv :: kvs => size kv.2 + 1 + sizeMembers kvs

end

/-- Keys of an association list are pairwise distinct (the invariant of a
Python dict's representation). -/
def nodupKeysB : List (String × PyVal) → Bool
  | [] => true
  | (k, _) :: t => (lookupStr t k).isNone && nodupKeysB t

mutual

/-- Well-formedness of a value as the image of a Python object: every dict
in it has pairwise-distinct keys. -/
def WFb : PyVal → Bool
  | .str _ => true
  | .int _ => true
  | .bool _ => true
  | .none => true
  | .list xs => WFbElems xs
  | .dict kvs => nodupKeysB kvs && WFbMembers kvs

/-- `WFb` on every element of a list. -/
def WFbElems : List PyVal → Bool
  | [] => true
  | x :: xs => WFb x && WFbElems xs

/-- `WFb` on every value of an association list. -/
def WFbMembers : List (String × PyVal) → Bool
  | [] => true
  | kv :: kvs => WFb kv.2 && WFbMembers kvs

end

/-- JSON whitespace. -/
def isWsChar (c : Char) : Bool := c = ' ' || c = '\t' || c = '\n' || c = '\r'

/-- Drop leading JSON whitespace. -/
def skipWs : List Char → List Char
  | [] => []
  | c :: cs => if isWsChar c then skipWs cs else c :: cs

/-- Value of a hexadecimal digit character. -/
def hexVal (c : Char) : Option Nat :=
  if '0' ≤ c ∧ c ≤ '9' then some (c.toNat - 48)
  else if 'a' ≤ c ∧ c ≤ 'f' then some (c.toNat - 87)
  else if 'A' ≤ c ∧ c ≤ 'F' then some (c.toNat - 55)
  else Option.none

mutual

/-- Decode the body of a JSON string literal (the opening quote already
consumed): returns the decoded characters and the input after the closing
quote.  Handles the short escapes, `\uXXXX`, and surrogate pairs; rejects
raw control characters (CPython strict mode) and malformed escapes. -/
def parseStrBody : List Char → Option (List Char × List Char)
  | [] => Option.none
  | c :: cs =>
    if c = '"' then some ([], cs)
    else if c = '\\' then parseEsc cs
    else if c.toNat < 32 then Option.none
    else (parseStrBody cs).map (fun p => (c :: p.1, p.2))

/-- Decode one escape sequence (the backslash already consumed). -/
def parseEsc : List Char → Option (List Char × List Char)
  | [] => Option.none
  | e :: cs =>
    if e = '"' then (parseStrBody cs).map (fun p => ('"' :: p.1, p.2))
    else if e = '\\' then (parseStrBody cs).map (fun p => ('\\' :: p.1, p.2))
    else if e = '/' then (parseStrBody cs).map (fun p => ('/' :: p.1, p.2))
    else if e = 'b' then
      (parseStrBody cs).map (fun p => (Char.ofNat 8 :: p.1, p.2))
    else if e = 'f' then
      (parseStrBody cs).map (fun p => (Char.ofNat 12 :: p.1, p.2))
    else if e = 'n' then (parseStrBody cs).map (fun p => ('\n' :: p.1, p.2))
    else if e = 'r' then (parseStrBody cs).map (fun p => ('\r' :: p.1, p.2))
    else if e = 't' then (parseStrBody cs).map (fun p => ('\t' :: p.1, p.2))
    else if e = 'u' then
      match cs with
      | h1 :: h2 :: h3 :: h4 :: cs1 =>
        match hexVal h1, hexVal h2, hexVal h3, hexVal h4 with
        | some a, some b, some c, some d =>
          if 55296 ≤ 4096 * a + 256 * b + 16 * c + d ∧
              4096 * a + 256 * b + 16 * c + d < 56320 then
            parseLowSurrogate (4096 * a + 256 * b + 16 * c + d) cs1
          else if 56320 ≤ 4096 * a + 256 * b + 16 * c + d ∧
              4096 * a + 256 * b + 16 * c + d < 57344 then Option.none
          else
            (parseStrBody cs1).map
              (fun p =>
                (Char.ofNat (4096 * a + 256 * b + 16 * c + d) :: p.1, p.2))
        | _, _, _, _ => Option.none
      | _ => Option.none
    else Option.none

/-- Decode the low-surrogate escape that must follow a high surrogate `n`,
and combine the pair into one scalar value; a lone or mispaired high
surrogate is rejected (not a scalar value of the model). -/
def parseLowSurrogate (n : Nat) : List Char → Option (List Char × List Char)
  | '\\' :: 'u' :: g1 :: g2 :: g3 :: g4 :: cs2 =>
    match hexVal g1, hexVal g2, hexVal g3, hexVal g4 with
    | some e1, some e2, some e3, some e4 =>
      if 56320 ≤ 4096 * e1 + 256 * e2 + 16 * e3 + e4 ∧
          4096 * e1 + 256 * e2 + 16 * e3 + e4 < 57344 then
        (parseStrBody cs2).map
          (fun p =>
            (Char.ofNat (65536 + 1024 * (n - 55296) +
              (4096 * e1 + 256 * e2 + 16 * e3 + e4 - 56320)) ::
              p.1, p.2))
      else Option.none
    | _, _, _, _ => Option.none
  | _ => Option.none

end

/-- Decimal digit test (the scalar values of `'0'`–`'9'`). -/
def isDigitChar (c : Char) : Bool :=
  decide (48 ≤ c.toNat) && decide (c.toNat ≤ 57)

/-- Numeric value of a string of decimal digit characters. -/
def digitsToNat (ds : List Char) : Nat :=
  ds.foldl (fun a c => 10 * a + (c.toNat - 48)) 0

/-- Whether the input continues with a fraction or exponent part, which
would make the number a float (outside the value model). -/
def floatStart : List Char → Bool
  | c :: _ => c = '.' || c = 'e' || c = 'E'
  | [] => false

/-- Decode an unsigned JSON integer literal: a maximal run of digits with no
leading zero and no fraction/exponent part following. -/
def parseNumNat (cs : List Char) : Option (Nat × List Char) :=
  if (cs.takeWhile isDigitChar).isEmpty then Option.none
  else if (cs.takeWhile isDigitChar).head? = some '0' ∧
      2 ≤ (cs.takeWhile isDigitChar).length then Option.none
  else if floatStart (cs.dropWhile isDigitChar) then Option.none
  else some (digitsToNat (cs.takeWhile isDigitChar), cs.dropWhile isDigitChar)

/-- Decode a JSON integer literal with optional minus sign. -/
def parseNum (cs : List Char) : Option (PyVal × List Char) :=
  if cs.head? = some '-' then
    (parseNumNat cs.tail).map (fun p => (.int (-(p.1 : Int)), p.2))
  else (parseNumNat cs).map (fun p => (.int (p.1 : Int), p.2))

mutual

/-- Decode one JSON value after skipping leading whitespace, returning the
value and the remaining input.  `fuel` bounds the recursion; every level of
nesting and every container element consumes at least one unit. -/
def parseVal : Nat → List Char → Option (PyVal × List Char)
  | 0, _ => Option.none
  | fuel + 1, cs =>
    match skipWs cs with
    | '\x7b' :: cs1 =>
      match skipWs cs1 with
      | '\x7d' :: r => some (.dict [], r)
      | cs2 => parseMembers fuel cs2 []
    | '[' :: cs1 =>
      match skipWs cs1 with
      | ']' :: r => some (.list [], r)
      | cs2 => parseElems fuel cs2 []
    | '"' :: cs1 => (parseStrBody cs1).map (fun p => (.str ⟨p.1⟩, p.2))
    | 't' :: 'r' :: 'u' :: 'e' :: r => some (.bool true, r)
    | 'f' :: 'a' :: 'l' :: 's' :: 'e' :: r => some (.bool false, r)
    | 'n' :: 'u' :: 'l' :: 'l' :: r => some (.none, r)
    | cs1 => parseNum cs1

/-- Decode the elements of a non-empty JSON array (opening bracket already
consumed), accumulating into `acc`: after each element a comma continues
the element list and a closing bracket ends the array. -/
def parseElems : Nat → List Char → List PyVal → Option (PyVal × List Char)
  | 0, _, _ => Option.none
  | fuel + 1, cs, acc =>
    (parseVal fuel cs).bind (fun vr =>
      match skipWs vr.2 with
      | ',' :: r2 => parseElems fuel r2 (acc ++ [vr.1])
      | ']' :: r2 => some (.list (acc ++ [vr.1]), r2)
      | _ => Option.none)

/-- Decode the members of a non-empty JSON object (opening brace and
leading whitespace already consumed): a member is a string key, a colon
and a value; a comma continues the member list (whitespace before the next
key is skipped) and a closing brace ends the object.  Members accumulate
with `dictInsert` — CPython builds the dict by successive assignment, so a
duplicate key overwrites the value at the first occurrence's position. -/
def parseMembers :
    Nat → List Char → List (String × PyVal) → Option (PyVal × List Char)
  | 0, _, _ => Option.none
  | fuel + 1, cs, acc =>
    match cs with
    | '"' :: cs1 =>
      (parseStrBody cs1).bind (fun kr =>
        match skipWs kr.2 with
        | ':' :: r2 =>
          (parseVal fuel r2).bind (fun vr =>
            match skipWs vr.2 with
            | ',' :: r4 =>
              parseMembers fuel (skipWs r4) (dictInsert acc ⟨kr.1⟩ vr.1)
            | '\x7d' :: r4 =>
              some (.dict (dictInsert acc ⟨kr.1⟩ vr.1), r4)
            | _ => Option.none)
        | _ => Option.none)
    | _ => Option.none

end

/-- `json.loads`: decode one JSON value with only whitespace allowed after
it.  The fuel is ample for any input that can be decoded at all. -/
def loads (s : String) : Option PyVal :=
  match parseVal (2 * s.data.length + 2) s.data with
  | some (v, rest) => if (skipWs rest).isEmpty then some v else Option.none
  | Option.none => Option.none

/-- Boundary condition used in the decoder-correctness statements: the
remaining input does not start with a character that could extend a number
literal. -/
def numBoundaryOK (t : List Char) : Prop :=
  ∀ c, t.head? = some c →
    isDigitChar c = false ∧ c ≠ '.' ∧ c ≠ 'e' ∧ c ≠ 'E'

/-- The in-memory state of a `RepoRef`: its canonical reference and the
key-value document `note_kv`. -/
structure RepoRef where
  ref : String
  note_kv : List (String × PyVal)

namespace RepoRef

/-- `RepoRef.__getitem__`: guard that the key is a string (else
`ValueError`), then Python dict indexing (absent key raises `KeyError`).
Pure: the document is never mutated by a read. -/
def getitem (r : RepoRef) (key : PyVal) : Except PyErr PyVal :=
  match key with
  | .str s =>
    match lookupStr r.note_kv s with
    | some v => .ok v
    | Option.none => .error .keyError
  | _ => .error .valueError

/-- `RepoRef.__setitem__`: guard that the key is a string (else
`ValueError`, raised before any mutation), then `self.note_kv[key] = value`.
Returns the outcome together with the (possibly updated) object state. -/
def setitem (r : RepoRef) (key value : PyVal) : Except PyErr Unit × RepoRef :=
  match key with
  | .str s => (.ok (), { r with note_kv := dictInsert r.note_kv s value })
  | _ => (.error .valueError, r)

/-- `RepoRef.__delitem__`: no string guard in the source — this is bare
Python `del self.note_kv[key]`: hashing an unhashable key raises
`TypeError`; otherwise an absent key raises `KeyError` (a non-string key is
never equal to the document's string keys). -/
def delitem (r : RepoRef) (key : PyVal) : Except PyErr Unit × RepoRef :=
  if key.hashable then
    match key with
    | .str s =>
      match lookupStr r.note_kv s with
      | some _ => (.ok (), { r with note_kv := dictRemove r.note_kv s })
      | Option.none => (.error .keyError, r)
    | _ => (.error .keyError, r)
  else (.error .typeError, r)

/-- `RepoRef.__contains__`: bare Python `key in self.note_kv`: raises
`TypeError` on an unhashable key, otherwise a membership test (a non-string
hashable key never equals a string key, hence is not present). -/
def contains (r : RepoRef) (key : PyVal) : Except PyErr Bool :=
  if key.hashable then
    match key with
    | .str s => .ok (lookupStr r.note_kv s).isSome
    | _ => .ok false
  else .error .typeError

/-- `RepoRef.get`: `self[key]` with `KeyError` converted to the default;
other exceptions (the `ValueError` from the string guard) propagate. -/
def get (r : RepoRef) (key default : PyVal) : Except PyErr PyVal :=
  match r.getitem key with
  | .ok v => .ok v
  | .error .keyError => .ok default
  | .error e => .error e

/-- `RepoRef.clear`: reset the document to an empty mapping. -/
def clear (r : RepoRef) : RepoRef :=
  { r with note_kv := [] }

end RepoRef

/-! ### The external git tool and the session layer -/

/-- The state of the external git repository as the library observes it:
whether `git rev-parse` succeeds (the repo exists), the resolution of
reference expressions to canonical identifiers (`git rev-parse <name>`,
already stripped), and the note attached to each reference
(`git notes show <ref>`; absent means exit code 1). -/
structure GitState where
  repoExists : Bool
  resolveTbl : List (String × String)
  notes : List (String × String)

/-- A git invocation issued while closing a session.  `notesAddForce` is
`git notes add -f -m <msg> <ref>`, `notesRemoveIgnoreMissing` is
`git notes remove --ignore-missing <ref>`, and `pushNotes` is a push of
notes to a remote (never issued by the code). -/
inductive GitCmd where
  | notesAddForce (msg : String) (ref : String)
  | notesRemoveIgnoreMissing (ref : String)
  | pushNotes (remote : String)
  deriving DecidableEq

/-- The constructor arguments of `Repo`: the repository path and the
`remote_push` flag (`__init__`, lines 50–63). -/
structure Repo where
  repo_path : String
  remote_push : Bool

/-- An open session: the `Repo` object together with its `active_refs`
cache mapping canonical reference identifiers to `RepoRef` handles, in
insertion order. -/
structure Session where
  repo : Repo
  active_refs : List (String × RepoRef)

/-- `RepoRef.__init__` (lines 146–171): start from an empty document; fetch
the note via `git notes show`.  If the tool reports no note (exit code 1),
keep the empty document — not an error.  Otherwise parse the content as
JSON: a parse failure raises `MalformedNoteDataError`, and a parse result
that is not a dict raises `MalformedNoteDataError` (that raise is not caught
by the `JSONDecodeError` handler and propagates). -/
def RepoRef.init (git : GitState) (ref : String) : Except PyErr RepoRef :=
  match lookupStr git.notes ref with
  | Option.none => .ok ⟨ref, []⟩
  | some note_data =>
    match loads note_data with
    | Option.none => .error .malformedNoteData
    | some (.dict kvs) => .ok ⟨ref, kvs⟩
    | some _ => .error .malformedNoteData

/-- `Repo.__enter__` (lines 65–78): probe the repository with
`git rev-parse`; on exit code 128 raise `RepoDoesNotExistError`, otherwise
initialize the empty `active_refs` cache. -/
def Repo.enter (git : GitState) (repo : Repo) : Except PyErr Session :=
  if git.repoExists then .ok ⟨repo, []⟩ else .error .repoDoesNotExist

/-- `Repo.__getitem__` (lines 95–113): resolve the requested name with
`git rev-parse` (failure raises `GitReferenceDoesNotExistError`); if the
canonical identifier is already in `active_refs` return the cached handle;
otherwise construct a `RepoRef` (whose load may raise — in that case the
raise propagates before the cache assignment, leaving the session as it
was) and cache it under the canonical identifier.  Returns the outcome
together with the resulting session state. -/
def Repo.getitem (git : GitState) (s : Session) (key : String) :
    Except PyErr RepoRef × Session :=
  match lookupStr git.resolveTbl key with
  | Option.none => (.error .gitReferenceDoesNotExist, s)
  | some ref =>
    match lookupStr s.active_refs ref with
    | some r => (.ok r, s)
    | Option.none =>
      match RepoRef.init git ref with
      | .error e => (.error e, s)
      | .ok r => (.ok r, { s with active_refs := s.active_refs ++ [(ref, r)] })

/-- The single git invocation `Repo.__exit__` issues for one cached handle
(lines 88–93): if its document is truthy (non-empty), `git notes add -f -m
<json.dumps(doc)> <ref>`; otherwise `git notes remove --ignore-missing
<ref>`. -/
def flushCmd (r : RepoRef) : GitCmd :=
  if r.note_kv.isEmpty then .notesRemoveIgnoreMissing r.ref
  else .notesAddForce (dumps (.dict r.note_kv)) r.ref

/-- The trace of git invocations of `Repo.__exit__` (lines 80–93) when none
of them fails: one flush per cached handle, in cache order, and nothing
else — in particular no push, whatever `remote_push` is. -/
def Repo.exitCmds (s : Session) : List GitCmd :=
  s.active_refs.map (fun p => flushCmd p.2)

/-- `Repo.__exit__` when git invocations may fail (`fails` says which):
the `for` loop has no exception handler, so the first failing invocation
aborts the loop.  Returns the attempted invocations (the failing one
included) and the escaping error, if any. -/
def runFlush (fails : GitCmd → Bool) :
    List (String × RepoRef) → List GitCmd × Option PyErr
  | [] => ([], Option.none)
  | (_, r) :: t =>
    let c := flushCmd r
    if fails c then ([c], some .gitCommandFailed)
    else
      let p := runFlush fails t
      (c :: p.1, p.2)

/-- The effect of the close-time git invocations on the notes store:
a forced `notes add` overwrites the note, a `notes remove` deletes it
(tolerating absence), a push does not change the store. -/
def applyCmd (notes : List (String × String)) : GitCmd → List (String × String)
  | .notesAddForce msg ref =>
    if (lookupStr notes ref).isSome then
      notes.map (fun p => if p.1 = ref then (ref, msg) else p)
    else notes ++ [(ref, msg)]
  | .notesRemoveIgnoreMissing ref => notes.filter (fun p => p.1 ≠ ref)
  | .pushNotes _ => notes

/-- Apply a trace of git invocations to the notes store, in order. -/
def applyCmds (notes : List (String × String)) : List GitCmd → List (String × String)
  | [] => notes
  | c :: cs => applyCmds (applyCmd notes c) cs

/-- Update the (unique) cache entry holding a given canonical identifier. -/
def mutateEntries (f : RepoRef → RepoRef) :
    List (String × RepoRef) → String → List (String × RepoRef)
  | [], _ => []
  | (k, r) :: t, ref =>
    if k = ref then (k, f r) :: t else (k, r) :: mutateEntries f t ref

/-- In-place mutation of the cached handle for a canonical identifier.
Python application code mutates the shared `RepoRef` object; in the pure
model this updates the cache entry it is stored under. -/
def Session.mutateHandle (s : Session) (ref : String) (f : RepoRef → RepoRef) :
    Session :=
  { s with active_refs := mutateEntries f s.active_refs ref }

/-! ### Association-list lemmas -/

theorem lookupStr_append {α : Type} (l1 l2 : List (String × α)) (k : String)
    (h : lookupStr l1 k = Option.none) :
    lookupStr (l1 ++ l2) k = lookupStr l2 k := by
  induction l1 with
  | nil => rfl
  | cons p t ih =>
    obtain ⟨k', v⟩ := p
    simp only [lookupStr, List.cons_append] at h ⊢
    by_cases hk : k' = k
    · rw [if_pos hk] at h
      exact nomatch h
    · rw [if_neg hk] at h ⊢
      exact ih h

theorem lookupStr_mutateEntries (l : List (String × RepoRef)) (ref : String)
    (r : RepoRef) (f : RepoRef → RepoRef) (h : lookupStr l ref = some r) :
    lookupStr (mutateEntries f l ref) ref = some (f r) := by
  induction l with
  | nil => exact nomatch h
  | cons p t ih =>
    obtain ⟨k', v⟩ := p
    simp only [lookupStr] at h
    simp only [mutateEntries]
    by_cases hk : k' = ref
    · rw [if_pos hk] at h
      obtain rfl : v = r := Option.some.inj h
      rw [if_pos hk]
      simp only [lookupStr]
      rw [if_pos hk]
    · rw [if_neg hk] at h
      rw [if_neg hk]
      simp only [lookupStr]
      rw [if_neg hk]
      exact ih h

/-! ### Decoder correctness: characters, escapes, digits -/

theorem toNat_ofNat_valid (n : Nat) (h : n.isValidChar) :
    (Char.ofNat n).toNat = n := by
  rw [Char.ofNat, dif_pos h]
  rfl

theorem char_valid_ranges (c : Char) :
    c.toNat < 55296 ∨ (57344 ≤ c.toNat ∧ c.toNat < 1114112) := c.valid

theorem char_ne_of_toNat_ne (c c' : Char) (h : c.toNat ≠ c'.toNat) :
    c ≠ c' := fun he => h (congrArg Char.toNat he)

theorem hexVal_hexDigitChar : ∀ d < 16, hexVal (hexDigitChar d) = some d := by
  decide

theorem hexVal_hex4 (n : Nat) :
    hexVal (hexDigitChar (n / 4096 % 16)) = some (n / 4096 % 16) ∧
    hexVal (hexDigitChar (n / 256 % 16)) = some (n / 256 % 16) ∧
    hexVal (hexDigitChar (n / 16 % 16)) = some (n / 16 % 16) ∧
    hexVal (hexDigitChar (n % 16)) = some (n % 16) :=
  ⟨hexVal_hexDigitChar _ (Nat.mod_lt _ (by omega)),
    hexVal_hexDigitChar _ (Nat.mod_lt _ (by omega)),
    hexVal_hexDigitChar _ (Nat.mod_lt _ (by omega)),
    hexVal_hexDigitChar _ (Nat.mod_lt _ (by omega))⟩

theorem hex4_decode (n : Nat) (h : n < 65536) :
    4096 * (n / 4096 % 16) + 256 * (n / 256 % 16) + 16 * (n / 16 % 16) +
      n % 16 = n := by
  omega

theorem parseStrBody_quote (cs : List Char) :
    parseStrBody ('"' :: cs) = some ([], cs) := by
  unfold parseStrBody
  simp only [Char.reduceEq, reduceIte]

theorem parseStrBody_backslash (cs : List Char) :
    parseStrBody ('\\' :: cs) = parseEsc cs := by
  unfold parseStrBody
  simp only [Char.reduceEq, reduceIte]

theorem parseStrBody_plain (c : Char) (cs : List Char) (h1 : c ≠ '"')
    (h2 : c ≠ '\\') (h3 : ¬c.toNat < 32) :
    parseStrBody (c :: cs) =
      (parseStrBody cs).map (fun p => (c :: p.1, p.2)) := by
  conv_lhs => rw [parseStrBody]
  rw [if_neg h1, if_neg h2, if_neg h3]

theorem parseEsc_quote (t : List Char) :
    parseEsc ('"' :: t) = (parseStrBody t).map (fun p => ('"' :: p.1, p.2)) := by
  unfold parseEsc
  simp only [Char.reduceEq, reduceIte]

theorem parseEsc_backslash (t : List Char) :
    parseEsc ('\\' :: t) =
      (parseStrBody t).map (fun p => ('\\' :: p.1, p.2)) := by
  unfold parseEsc
  simp only [Char.reduceEq, reduceIte]

theorem parseEsc_b (t : List Char) :
    parseEsc ('b' :: t) =
      (parseStrBody t).map (fun p => (Char.ofNat 8 :: p.1, p.2)) := by
  unfold parseEsc
  simp only [Char.reduceEq, reduceIte]

theorem parseEsc_f (t : List Char) :
    parseEsc ('f' :: t) =
      (parseStrBody t).map (fun p => (Char.ofNat 12 :: p.1, p.2)) := by
  unfold parseEsc
  simp only [Char.reduceEq, reduceIte]

theorem parseEsc_n (t : List Char) :
    parseEsc ('n' :: t) = (parseStrBody t).map (fun p => ('\n' :: p.1, p.2)) := by
  unfold parseEsc
  simp only [Char.reduceEq, reduceIte]

theorem parseEsc_r (t : List Char) :
    parseEsc ('r' :: t) = (parseStrBody t).map (fun p => ('\r' :: p.1, p.2)) := by
  unfold parseEsc
  simp only [Char.reduceEq, reduceIte]

theorem parseEsc_t (t : List Char) :
    parseEsc ('t' :: t) = (parseStrBody t).map (fun p => ('\t' :: p.1, p.2)) := by
  unfold parseEsc
  simp only [Char.reduceEq, reduceIte]

theorem parseEsc_u_plain (h1 h2 h3 h4 : Char) (a b c d : Nat) (cs : List Char)
    (e1 : hexVal h1 = some a) (e2 : hexVal h2 = some b)
    (e3 : hexVal h3 = some c) (e4 : hexVal h4 = some d)
    (hA : ¬(55296 ≤ 4096 * a + 256 * b + 16 * c + d ∧
      4096 * a + 256 * b + 16 * c + d < 56320))
    (hB : ¬(56320 ≤ 4096 * a + 256 * b + 16 * c + d ∧
      4096 * a + 256 * b + 16 * c + d < 57344)) :
    parseEsc ('u' :: h1 :: h2 :: h3 :: h4 :: cs) =
      (parseStrBody cs).map
        (fun p => (Char.ofNat (4096 * a + 256 * b + 16 * c + d) :: p.1, p.2)) := by
  unfold parseEsc
  simp only [Char.reduceEq, reduceIte]
  rw [e1, e2, e3, e4]
  simp only [if_neg hA, if_neg hB]

theorem parseEsc_u_high (h1 h2 h3 h4 : Char) (a b c d : Nat) (cs : List Char)
    (e1 : hexVal h1 = some a) (e2 : hexVal h2 = some b)
    (e3 : hexVal h3 = some c) (e4 : hexVal h4 = some d)
    (hA : 55296 ≤ 4096 * a + 256 * b + 16 * c + d ∧
      4096 * a + 256 * b + 16 * c + d < 56320) :
    parseEsc ('u' :: h1 :: h2 :: h3 :: h4 :: cs) =
      parseLowSurrogate (4096 * a + 256 * b + 16 * c + d) cs := by
  unfold parseEsc
  simp only [Char.reduceEq, reduceIte]
  rw [e1, e2, e3, e4]
  simp only [if_pos hA]

theorem parseLowSurrogate_eq (n : Nat) (g1 g2 g3 g4 : Char)
    (e1 e2 e3 e4 : Nat) (cs2 : List Char)
    (f1 : hexVal g1 = some e1) (f2 : hexVal g2 = some e2)
    (f3 : hexVal g3 = some e3) (f4 : hexVal g4 = some e4)
    (hm : 56320 ≤ 4096 * e1 + 256 * e2 + 16 * e3 + e4 ∧
      4096 * e1 + 256 * e2 + 16 * e3 + e4 < 57344) :
    parseLowSurrogate n ('\\' :: 'u' :: g1 :: g2 :: g3 :: g4 :: cs2) =
      (parseStrBody cs2).map
        (fun p =>
          (Char.ofNat (65536 + 1024 * (n - 55296) +
            (4096 * e1 + 256 * e2 + 16 * e3 + e4 - 56320)) :: p.1, p.2)) := by
  have hstep : parseLowSurrogate n ('\\' :: 'u' :: g1 :: g2 :: g3 :: g4 :: cs2) =
      (match hexVal g1, hexVal g2, hexVal g3, hexVal g4 with
        | some x1, some x2, some x3, some x4 =>
          if 56320 ≤ 4096 * x1 + 256 * x2 + 16 * x3 + x4 ∧
              4096 * x1 + 256 * x2 + 16 * x3 + x4 < 57344 then
            (parseStrBody cs2).map
              (fun p =>
                (Char.ofNat (65536 + 1024 * (n - 55296) +
                  (4096 * x1 + 256 * x2 + 16 * x3 + x4 - 56320)) ::
                  p.1, p.2))
          else Option.none
        | _, _, _, _ => Option.none) := rfl
  rw [hstep, f1, f2, f3, f4]
  show (if 56320 ≤ 4096 * e1 + 256 * e2 + 16 * e3 + e4 ∧
      4096 * e1 + 256 * e2 + 16 * e3 + e4 < 57344 then
    (parseStrBody cs2).map
      (fun p =>
        (Char.ofNat (65536 + 1024 * (n - 55296) +
          (4096 * e1 + 256 * e2 + 16 * e3 + e4 - 56320)) ::
          p.1, p.2))
  else Option.none) = _
  rw [if_pos hm]

/-- Decoding inverts the escaping of one character: the decoder consumes
exactly `escChar c` and produces `c`. -/
theorem parseStrBody_escChar (c : Char) (t : List Char) :
    parseStrBody (escChar c ++ t) =
      (parseStrBody t).map (fun p => (c :: p.1, p.2)) := by
  by_cases h1 : c = '"'
  · subst h1
    rw [show escChar '"' ++ t = '\\' :: '"' :: t from rfl,
      parseStrBody_backslash, parseEsc_quote]
  by_cases h2 : c = '\\'
  · subst h2
    rw [show escChar '\\' ++ t = '\\' :: '\\' :: t from rfl,
      parseStrBody_backslash, parseEsc_backslash]
  by_cases h3 : c = '\n'
  · subst h3
    rw [show escChar '\n' ++ t = '\\' :: 'n' :: t from rfl,
      parseStrBody_backslash, parseEsc_n]
  by_cases h4 : c = '\r'
  · subst h4
    rw [show escChar '\r' ++ t = '\\' :: 'r' :: t from rfl,
      parseStrBody_backslash, parseEsc_r]
  by_cases h5 : c = '\t'
  · subst h5
    rw [show escChar '\t' ++ t = '\\' :: 't' :: t from rfl,
      parseStrBody_backslash, parseEsc_t]
  by_cases h6 : c.toNat = 8
  · have hc : c = Char.ofNat 8 := by
      rw [← h6, Char.ofNat_toNat]
    rw [hc]
    rw [show escChar (Char.ofNat 8) ++ t = '\\' :: 'b' :: t from rfl,
      parseStrBody_backslash, parseEsc_b]
  by_cases h7 : c.toNat = 12
  · have hc : c = Char.ofNat 12 := by
      rw [← h7, Char.ofNat_toNat]
    rw [hc]
    rw [show escChar (Char.ofNat 12) ++ t = '\\' :: 'f' :: t from rfl,
      parseStrBody_backslash, parseEsc_f]
  by_cases h8 : c.toNat < 32
  · have hesc : escChar c = '\\' :: 'u' :: hex4 c.toNat := by
      unfold escChar
      rw [if_neg h1, if_neg h2, if_neg h3, if_neg h4, if_neg h5, if_neg h6,
        if_neg h7, if_pos h8]
    obtain ⟨e1, e2, e3, e4⟩ := hexVal_hex4 c.toNat
    rw [hesc]
    simp only [hex4, List.cons_append, List.nil_append]
    rw [parseStrBody_backslash,
      parseEsc_u_plain _ _ _ _ _ _ _ _ _ e1 e2 e3 e4 (by omega) (by omega),
      hex4_decode c.toNat (by omega), Char.ofNat_toNat]
  by_cases h9 : c.toNat < 127
  · have hesc : escChar c = [c] := by
      unfold escChar
      rw [if_neg h1, if_neg h2, if_neg h3, if_neg h4, if_neg h5, if_neg h6,
        if_neg h7, if_neg h8, if_pos h9]
    rw [hesc, List.singleton_append, parseStrBody_plain c t h1 h2 h8]
  by_cases h10 : c.toNat < 65536
  · have hesc : escChar c = '\\' :: 'u' :: hex4 c.toNat := by
      unfold escChar
      rw [if_neg h1, if_neg h2, if_neg h3, if_neg h4, if_neg h5, if_neg h6,
        if_neg h7, if_neg h8, if_neg h9, if_pos h10]
    obtain ⟨e1, e2, e3, e4⟩ := hexVal_hex4 c.toNat
    have hval := char_valid_ranges c
    rw [hesc]
    simp only [hex4, List.cons_append, List.nil_append]
    rw [parseStrBody_backslash,
      parseEsc_u_plain _ _ _ _ _ _ _ _ _ e1 e2 e3 e4 (by omega) (by omega),
      hex4_decode c.toNat (by omega), Char.ofNat_toNat]
  · have hN : 57344 ≤ c.toNat ∧ c.toNat < 1114112 := by
      rcases char_valid_ranges c with hv | hv
      · omega
      · exact hv
    have hesc : escChar c =
        '\\' :: 'u' :: hex4 (55296 + (c.toNat - 65536) / 1024) ++
          '\\' :: 'u' :: hex4 (56320 + (c.toNat - 65536) % 1024) := by
      unfold escChar
      rw [if_neg h1, if_neg h2, if_neg h3, if_neg h4, if_neg h5, if_neg h6,
        if_neg h7, if_neg h8, if_neg h9, if_neg h10]
    obtain ⟨e1, e2, e3, e4⟩ := hexVal_hex4 (55296 + (c.toNat - 65536) / 1024)
    obtain ⟨f1, f2, f3, f4⟩ := hexVal_hex4 (56320 + (c.toNat - 65536) % 1024)
    rw [hesc]
    simp only [hex4, List.cons_append, List.nil_append, List.append_assoc]
    rw [parseStrBody_backslash,
      parseEsc_u_high _ _ _ _ _ _ _ _ _ e1 e2 e3 e4 (by omega),
      hex4_decode (55296 + (c.toNat - 65536) / 1024) (by omega),
      parseLowSurrogate_eq _ _ _ _ _ _ _ _ _ _ f1 f2 f3 f4
        (by
          rw [hex4_decode (56320 + (c.toNat - 65536) % 1024) (by omega)]
          omega),
      hex4_decode (56320 + (c.toNat - 65536) % 1024) (by omega)]
    have hcomb : 65536 +
        1024 * (55296 + (c.toNat - 65536) / 1024 - 55296) +
        (56320 + (c.toNat - 65536) % 1024 - 56320) = c.toNat := by
      omega
    rw [hcomb, Char.ofNat_toNat]

/-- Decoding inverts the escaping of a whole character list, consuming the
closing quote. -/
theorem parseStrBody_escList (l t : List Char) :
    parseStrBody ((l.map escChar).flatten ++ '"' :: t) = some (l, t) := by
  induction l with
  | nil =>
    simp only [List.map_nil, List.flatten_nil, List.nil_append]
    exact parseStrBody_quote t
  | cons c l ih =>
    simp only [List.map_cons, List.flatten_cons, List.append_assoc]
    rw [parseStrBody_escChar, ih]
    rfl

/-- Decoding inverts `escStr`, consuming the closing quote. -/
theorem parseStrBody_escStr (s : String) (t : List Char) :
    parseStrBody (escStr s ++ '"' :: t) = some (s.data, t) :=
  parseStrBody_escList s.data t

/-! ### Decoder correctness: integer literals -/

theorem natToChars_eq_small (n : Nat) (h : n < 10) :
    natToChars n = [Char.ofNat (48 + n)] := by
  rw [natToChars, if_pos h]

theorem natToChars_eq_large (n : Nat) (h : ¬n < 10) :
    natToChars n = natToChars (n / 10) ++ [Char.ofNat (48 + n % 10)] := by
  conv_lhs => rw [natToChars]
  rw [if_neg h]

theorem digitChar_toNat (d : Nat) (h : d < 10) :
    (Char.ofNat (48 + d)).toNat = 48 + d :=
  toNat_ofNat_valid _ (Or.inl (by omega))

theorem isDigitChar_digit (d : Nat) (h : d < 10) :
    isDigitChar (Char.ofNat (48 + d)) = true := by
  unfold isDigitChar
  rw [digitChar_toNat d h]
  simp only [Bool.and_eq_true, decide_eq_true_eq]
  omega

theorem natToChars_all_digits (n : Nat) :
    ∀ c ∈ natToChars n, isDigitChar c = true := by
  induction n using Nat.strong_induction_on with
  | _ n ih =>
    by_cases h : n < 10
    · rw [natToChars_eq_small n h]
      intro c hc
      rw [List.mem_singleton] at hc
      subst hc
      exact isDigitChar_digit n h
    · rw [natToChars_eq_large n h]
      intro c hc
      rw [List.mem_append] at hc
      rcases hc with hc | hc
      · exact ih (n / 10) (Nat.div_lt_self (by omega) (by omega)) c hc
      · rw [List.mem_singleton] at hc
        subst hc
        exact isDigitChar_digit (n % 10) (Nat.mod_lt _ (by omega))

theorem natToChars_head_digit (n : Nat) :
    ∃ d ds, natToChars n = Char.ofNat (48 + d) :: ds ∧ d < 10 ∧
      (n ≠ 0 → d ≠ 0) ∧ (n < 10 → ds = []) := by
  induction n using Nat.strong_induction_on with
  | _ n ih =>
    by_cases h : n < 10
    · exact ⟨n, [], by rw [natToChars_eq_small n h], h, fun hn => hn,
        fun _ => rfl⟩
    · obtain ⟨d, ds, hds, hd10, hd0, _⟩ :=
        ih (n / 10) (Nat.div_lt_self (by omega) (by omega))
      refine ⟨d, ds ++ [Char.ofNat (48 + n % 10)], ?_, hd10, ?_, ?_⟩
      · rw [natToChars_eq_large n h, hds, List.cons_append]
      · intro _
        exact hd0 (by omega)
      · intro hn
        exact absurd hn h

theorem digitsToNat_append (ds : List Char) (d : Char) :
    digitsToNat (ds ++ [d]) = 10 * digitsToNat ds + (d.toNat - 48) := by
  simp [digitsToNat, List.foldl_append]

theorem digitsToNat_natToChars (n : Nat) :
    digitsToNat (natToChars n) = n := by
  induction n using Nat.strong_induction_on with
  | _ n ih =>
    by_cases h : n < 10
    · rw [natToChars_eq_small n h]
      simp only [digitsToNat, List.foldl_cons, List.foldl_nil]
      rw [digitChar_toNat n h]
      omega
    · rw [natToChars_eq_large n h, digitsToNat_append,
        ih (n / 10) (Nat.div_lt_self (by omega) (by omega)),
        digitChar_toNat (n % 10) (Nat.mod_lt _ (by omega))]
      omega

theorem takeWhile_append_all {p : Char → Bool} (l t : List Char)
    (hl : ∀ x ∈ l, p x = true)
    (ht : ∀ c, t.head? = some c → p c = false) :
    (l ++ t).takeWhile p = l ∧ (l ++ t).dropWhile p = t := by
  induction l with
  | nil =>
    simp only [List.nil_append]
    cases t with
    | nil => exact ⟨rfl, rfl⟩
    | cons c t' =>
      have hc : p c = false := ht c rfl
      constructor
      · simp [List.takeWhile_cons, hc]
      · simp [List.dropWhile_cons, hc]
  | cons x l ih =>
    have hx : p x = true := hl x (List.mem_cons_self x l)
    obtain ⟨ht1, ht2⟩ := ih (fun y hy => hl y (List.mem_cons_of_mem x hy))
    constructor
    · simp [List.cons_append, List.takeWhile_cons, hx, ht1]
    · simp [List.cons_append, List.dropWhile_cons, hx, ht2]

theorem parseNumNat_natToChars (n : Nat) (t : List Char)
    (ht : ∀ c, t.head? = some c → isDigitChar c = false)
    (hf : floatStart t = false) :
    parseNumNat (natToChars n ++ t) = some (n, t) := by
  obtain ⟨htake, hdrop⟩ :=
    takeWhile_append_all (natToChars n) t (natToChars_all_digits n) ht
  obtain ⟨d, ds, hds, hd10, hd0, hsmall⟩ := natToChars_head_digit n
  unfold parseNumNat
  rw [htake, hdrop]
  rw [if_neg (by rw [hds]; simp)]
  rw [if_neg ?hc2, if_neg (by rw [hf]; simp), digitsToNat_natToChars n]
  case hc2 =>
    rintro ⟨hhead, hlen⟩
    by_cases hn : n < 10
    · rw [hds, hsmall hn] at hlen
      simp at hlen
    · rw [hds] at hhead
      simp only [List.head?_cons, Option.some.injEq] at hhead
      have : (Char.ofNat (48 + d)).toNat = 48 :=
        hhead ▸ rfl
      rw [digitChar_toNat d hd10] at this
      have hd0' : d ≠ 0 := hd0 (by omega)
      omega

theorem parseNum_int (i : Int) (t : List Char)
    (ht : ∀ c, t.head? = some c → isDigitChar c = false)
    (hf : floatStart t = false) :
    parseNum (ser (.int i) ++ t) = some (.int i, t) := by
  simp only [ser]
  by_cases hi : i < 0
  · rw [if_pos hi, List.cons_append]
    unfold parseNum
    simp only [List.head?_cons, List.tail_cons, reduceIte]
    rw [parseNumNat_natToChars i.natAbs t ht hf]
    simp only [Option.map_some']
    have : -(i.natAbs : Int) = i := by omega
    rw [this]
  · rw [if_neg hi]
    unfold parseNum
    obtain ⟨d, ds, hds, hd10, _, _⟩ := natToChars_head_digit i.toNat
    rw [if_neg ?hddash]
    rw [parseNumNat_natToChars i.toNat t ht hf]
    simp only [Option.map_some']
    have : (i.toNat : Int) = i := by omega
    rw [this]
    case hddash =>
      rw [hds, List.cons_append]
      simp only [List.head?_cons, Option.some.injEq]
      intro hd
      have : (Char.ofNat (48 + d)).toNat = 45 := hd ▸ rfl
      rw [digitChar_toNat d hd10] at this
      omega

/-! ### Decoder correctness: whitespace, dispatch on the first character -/

theorem skipWs_not_ws (c : Char) (cs : List Char) (h : isWsChar c = false) :
    skipWs (c :: cs) = c :: cs := by
  simp [skipWs, h]

theorem skipWs_ws (c : Char) (cs : List Char) (h : isWsChar c = true) :
    skipWs (c :: cs) = skipWs cs := by
  simp [skipWs, h]

theorem parseVal_space (g : Nat) (cs : List Char) :
    parseVal g (' ' :: cs) = parseVal g cs := by
  cases g with
  | zero => rfl
  | succ g =>
    conv_lhs => rw [parseVal]
    conv_rhs => rw [parseVal]
    rw [skipWs_ws ' ' cs (by decide)]

theorem parseElems_space (g : Nat) (cs : List Char) (acc : List PyVal) :
    parseElems g (' ' :: cs) acc = parseElems g cs acc := by
  cases g with
  | zero => rfl
  | succ g =>
    conv_lhs => rw [parseElems]
    conv_rhs => rw [parseElems]
    rw [parseVal_space g cs]

theorem digitChar_ne (d : Nat) (hd : d < 10) (c : Char)
    (hc : ¬(48 ≤ c.toNat ∧ c.toNat ≤ 57)) : Char.ofNat (48 + d) ≠ c := by
  intro he
  have h3 := congrArg Char.toNat he
  rw [digitChar_toNat d hd] at h3
  omega

theorem isWsChar_digitChar (d : Nat) (hd : d < 10) :
    isWsChar (Char.ofNat (48 + d)) = false := by
  unfold isWsChar
  simp only [Bool.or_eq_false_iff, decide_eq_false_iff_not]
  exact ⟨⟨⟨digitChar_ne d hd ' ' (by decide),
    digitChar_ne d hd '\t' (by decide)⟩,
    digitChar_ne d hd '\n' (by decide)⟩,
    digitChar_ne d hd '\r' (by decide)⟩

theorem parseVal_quote (fuel : Nat) (cs1 : List Char) :
    parseVal (fuel + 1) ('"' :: cs1) =
      (parseStrBody cs1).map (fun p => (PyVal.str ⟨p.1⟩, p.2)) := rfl

theorem parseVal_arr (fuel : Nat) (cs1 : List Char) :
    parseVal (fuel + 1) ('[' :: cs1) =
      (match skipWs cs1 with
        | ']' :: r => some (.list [], r)
        | cs2 => parseElems fuel cs2 []) := rfl

theorem parseVal_obj (fuel : Nat) (cs1 : List Char) :
    parseVal (fuel + 1) ('\x7b' :: cs1) =
      (match skipWs cs1 with
        | '\x7d' :: r => some (.dict [], r)
        | cs2 => parseMembers fuel cs2 []) := rfl

set_option maxHeartbeats 1600000 in
theorem parseVal_digit (fuel : Nat) (d : Nat) (hd : d < 10)
    (rest : List Char) :
    parseVal (fuel + 1) (Char.ofNat (48 + d) :: rest) =
      parseNum (Char.ofNat (48 + d) :: rest) := by
  conv_lhs => rw [parseVal]
  rw [skipWs_not_ws _ _ (isWsChar_digitChar d hd)]
  split
  · rename_i heq
    injection heq with h1 _
    exact absurd h1 (digitChar_ne d hd '\x7b' (by decide))
  · rename_i heq
    injection heq with h1 _
    exact absurd h1 (digitChar_ne d hd '[' (by decide))
  · rename_i heq
    injection heq with h1 _
    exact absurd h1 (digitChar_ne d hd '"' (by decide))
  · rename_i heq
    injection heq with h1 _
    exact absurd h1 (digitChar_ne d hd 't' (by decide))
  · rename_i heq
    injection heq with h1 _
    exact absurd h1 (digitChar_ne d hd 'f' (by decide))
  · rename_i heq
    injection heq with h1 _
    exact absurd h1 (digitChar_ne d hd 'n' (by decide))
  · rfl

theorem parseMembers_quote (fuel : Nat) (cs1 : List Char)
    (acc : List (String × PyVal)) :
    parseMembers (fuel + 1) ('"' :: cs1) acc =
      (parseStrBody cs1).bind (fun kr =>
        match skipWs kr.2 with
        | ':' :: r2 =>
          (parseVal fuel r2).bind (fun vr =>
            match skipWs vr.2 with
            | ',' :: r4 =>
              parseMembers fuel (skipWs r4) (dictInsert acc ⟨kr.1⟩ vr.1)
            | '\x7d' :: r4 =>
              some (.dict (dictInsert acc ⟨kr.1⟩ vr.1), r4)
            | _ => Option.none)
        | _ => Option.none) := rfl

/-- Every serialized value starts with a printable non-bracket character:
in particular the decoder's whitespace skipping and the `]`/`\x7d`
empty-container tests do not fire on it. -/
theorem ser_head_shape (v : PyVal) :
    ∃ d ds, ser v = d :: ds ∧ isWsChar d = false ∧ d ≠ ']' := by
  cases v with
  | str s => exact ⟨'"', escStr s ++ ['"'], by simp [ser], by decide, by decide⟩
  | int n =>
    by_cases hneg : n < 0
    · exact ⟨'-', natToChars n.natAbs, by simp [ser, hneg], by decide, by decide⟩
    · obtain ⟨d, ds, hds, hd10, _, _⟩ := natToChars_head_digit n.toNat
      exact ⟨Char.ofNat (48 + d), ds, by simp [ser, hneg, hds],
        isWsChar_digitChar d hd10, digitChar_ne d hd10 ']' (by decide)⟩
  | bool b =>
    cases b with
    | true => exact ⟨'t', ['r', 'u', 'e'], by simp [ser], by decide, by decide⟩
    | false =>
      exact ⟨'f', ['a', 'l', 's', 'e'], by simp [ser], by decide, by decide⟩
  | none => exact ⟨'n', ['u', 'l', 'l'], by simp [ser], by decide, by decide⟩
  | list xs =>
    cases xs with
    | nil => exact ⟨'[', [']'], by simp [ser], by decide, by decide⟩
    | cons x t =>
      exact ⟨'[', (ser x ++ serTail t) ++ [']'], by simp [ser], by decide,
        by decide⟩
  | dict kvs =>
    cases kvs with
    | nil => exact ⟨'\x7b', ['\x7d'], by simp [ser], by decide, by decide⟩
    | cons kv t =>
      exact ⟨'\x7b', (serMember kv ++ serMemberTail t) ++ ['\x7d'],
        by simp [ser], by decide, by decide⟩

theorem size_pos (v : PyVal) : 1 ≤ size v := by
  cases v <;> simp [size]

mutual

theorem size_le_ser : (v : PyVal) → size v ≤ 2 * (ser v).length
  | .str s => by
    simp [size, ser]
    omega
  | .int n => by
    by_cases hneg : n < 0
    · simp [size, ser, hneg]
      omega
    · obtain ⟨d, ds, hds, _, _, _⟩ := natToChars_head_digit n.toNat
      simp [size, ser, hneg, hds]
      omega
  | .bool b => by
    cases b <;> simp [size, ser]
  | .none => by
    simp [size, ser]
  | .list [] => by
    simp [size, ser, sizeElems]
  | .list (x :: xs) => by
    have h1 := size_le_ser x
    have h2 := sizeElems_le_serTail xs
    simp only [size, sizeElems, ser, List.length_cons, List.length_append,
      List.length_singleton]
    omega
  | .dict [] => by
    simp [size, ser, sizeMembers]
  | .dict (kv :: kvs) => by
    obtain ⟨k, v⟩ := kv
    have h1 := size_le_ser v
    have h2 := sizeMembers_le_serMemberTail kvs
    simp only [size, sizeMembers, ser, serMember, List.length_cons,
      List.length_append, List.length_singleton]
    omega

theorem sizeElems_le_serTail :
    (xs : List PyVal) → sizeElems xs ≤ 2 * (serTail xs).length + 1
  | [] => by
    simp [sizeElems, serTail]
  | x :: xs => by
    have h1 := size_le_ser x
    have h2 := sizeElems_le_serTail xs
    simp only [sizeElems, serTail, List.length_cons, List.length_append]
    omega

theorem sizeMembers_le_serMemberTail :
    (kvs : List (String × PyVal)) →
      sizeMembers kvs ≤ 2 * (serMemberTail kvs).length + 1
  | [] => by
    simp [sizeMembers, serMemberTail]
  | kv :: kvs => by
    obtain ⟨k, v⟩ := kv
    have h1 := size_le_ser v
    have h2 := sizeMembers_le_serMemberTail kvs
    simp only [sizeMembers, serMemberTail, serMember, List.length_cons,
      List.length_append]
    omega

end

theorem floatStart_eq_false (t : List Char)
    (h : ∀ c, t.head? = some c → c ≠ '.' ∧ c ≠ 'e' ∧ c ≠ 'E') :
    floatStart t = false := by
  cases t with
  | nil => rfl
  | cons c r =>
    obtain ⟨h1, h2, h3⟩ := h c rfl
    simp [floatStart, h1, h2, h3]

theorem lookupStr_append_left {α : Type} (l1 l2 : List (String × α))
    (k : String) (w : α) (h : lookupStr l1 k = some w) :
    lookupStr (l1 ++ l2) k = some w := by
  induction l1 with
  | nil => exact nomatch h
  | cons p t ih =>
    obtain ⟨k', v⟩ := p
    simp only [lookupStr, List.cons_append] at h ⊢
    by_cases hk : k' = k
    · rwa [if_pos hk] at h ⊢
    · rw [if_neg hk] at h ⊢
      exact ih h

theorem lookupStr_mid_isSome {α : Type} (l1 l2 : List (String × α))
    (k : String) (v : α) :
    (lookupStr (l1 ++ (k, v) :: l2) k).isSome = true := by
  cases hl : lookupStr l1 k with
  | some w => rw [lookupStr_append_left l1 _ k w hl]; rfl
  | none =>
    rw [lookupStr_append l1 _ k hl]
    simp [lookupStr]

theorem nodup_lookup_left (l1 l2 : List (String × PyVal)) (k : String)
    (v : PyVal) (h : nodupKeysB (l1 ++ (k, v) :: l2) = true) :
    lookupStr l1 k = Option.none := by
  induction l1 with
  | nil => rfl
  | cons p t ih =>
    obtain ⟨k0, v0⟩ := p
    simp only [List.cons_append, nodupKeysB, Bool.and_eq_true,
      List.append_eq] at h
    obtain ⟨h1, h2⟩ := h
    simp only [lookupStr]
    rw [if_neg ?hne]
    · exact ih h2
    case hne =>
      intro hk
      subst hk
      rw [Option.isNone_iff_eq_none] at h1
      have := lookupStr_mid_isSome t l2 k0 v
      rw [h1] at this
      exact nomatch this

theorem dictInsert_of_lookup_none (l : List (String × PyVal)) (k : String)
    (v : PyVal) (h : lookupStr l k = Option.none) :
    dictInsert l k v = l ++ [(k, v)] := by
  induction l with
  | nil => rfl
  | cons p t ih =>
    obtain ⟨k', v'⟩ := p
    simp only [lookupStr] at h
    by_cases hk : k' = k
    · rw [if_pos hk] at h
      exact nomatch h
    · rw [if_neg hk] at h
      simp only [dictInsert, List.cons_append]
      rw [if_neg hk, ih h]

set_option maxHeartbeats 1600000 in
/-- The decoder inverts the encoder: with fuel at least the size of a
well-formed value, parsing its serialization consumes exactly it; the two
further conjuncts state the same for the element list of a non-empty array
and the member list of a non-empty object. -/
theorem parse_ser (fuel : Nat) :
    (∀ v t, WFb v = true → size v ≤ fuel → numBoundaryOK t →
      parseVal fuel (ser v ++ t) = some (v, t)) ∧
    (∀ x xs acc t, WFb x = true → WFbElems xs = true →
      size x + 1 + sizeElems xs ≤ fuel →
      parseElems fuel (ser x ++ (serTail xs ++ ']' :: t)) acc =
        some (.list (acc ++ x :: xs), t)) ∧
    (∀ k v kvs acc t, WFb v = true → WFbMembers kvs = true →
      nodupKeysB (acc ++ (k, v) :: kvs) = true →
      size v + 1 + sizeMembers kvs ≤ fuel →
      parseMembers fuel
          (serMember (k, v) ++ (serMemberTail kvs ++ '\x7d' :: t)) acc =
        some (.dict (acc ++ (k, v) :: kvs), t)) := by
  induction fuel with
  | zero =>
    refine ⟨?_, ?_, ?_⟩
    · intro v t _ hsz _
      have := size_pos v
      omega
    · intro x xs acc t _ _ hsz
      omega
    · intro k v kvs acc t _ _ _ hsz
      omega
  | succ fuel ih =>
    obtain ⟨ih1, ih2, ih3⟩ := ih
    refine ⟨?_, ?_, ?_⟩
    · intro v t hwf hsz hb
      cases v with
      | str s =>
        have hser : ser (.str s) = '"' :: (escStr s ++ ['"']) := by
          simp [ser]
        rw [hser, List.cons_append, parseVal_quote]
        rw [show (escStr s ++ ['"']) ++ t = escStr s ++ '"' :: t by simp]
        rw [parseStrBody_escStr s t]
        rfl
      | int i =>
        have ht1 : ∀ c, t.head? = some c → isDigitChar c = false :=
          fun c hc => (hb c hc).1
        have ht2 : floatStart t = false :=
          floatStart_eq_false t (fun c hc => (hb c hc).2)
        have hnum := parseNum_int i t ht1 ht2
        by_cases hneg : i < 0
        · have hser : ser (.int i) = '-' :: natToChars i.natAbs := by
            simp [ser, hneg]
          rw [hser, List.cons_append] at hnum ⊢
          have hstep : parseVal (fuel + 1)
              ('-' :: (natToChars i.natAbs ++ t)) =
              parseNum ('-' :: (natToChars i.natAbs ++ t)) := rfl
          rw [hstep]
          exact hnum
        · obtain ⟨d, ds, hds, hd10, _, _⟩ := natToChars_head_digit i.toNat
          have hser : ser (.int i) = natToChars i.toNat := by
            simp [ser, hneg]
          rw [hser, hds, List.cons_append] at hnum ⊢
          rw [parseVal_digit fuel d hd10]
          exact hnum
      | bool b =>
        cases b with
        | true =>
          rw [show ser (.bool true) ++ t = 't' :: 'r' :: 'u' :: 'e' :: t by
            simp [ser]]
          rfl
        | false =>
          rw [show ser (.bool false) ++ t =
            'f' :: 'a' :: 'l' :: 's' :: 'e' :: t by simp [ser]]
          rfl
      | none =>
        rw [show ser PyVal.none ++ t = 'n' :: 'u' :: 'l' :: 'l' :: t by
          simp [ser]]
        rfl
      | list xs =>
        cases xs with
        | nil =>
          rw [show ser (.list []) ++ t = '[' :: ']' :: t by simp [ser],
            parseVal_arr, skipWs_not_ws _ _ (by decide)]
          rfl
        | cons x xs =>
          rw [show ser (.list (x :: xs)) ++ t =
            '[' :: (ser x ++ (serTail xs ++ ']' :: t)) by simp [ser],
            parseVal_arr]
          obtain ⟨d, ds, hds, hws, hdne⟩ := ser_head_shape x
          rw [hds, List.cons_append, skipWs_not_ws _ _ hws]
          have hwx : WFb x = true ∧ WFbElems xs = true := by
            have h0 : WFbElems (x :: xs) = true := by
              simpa [WFb] using hwf
            simpa [WFbElems, Bool.and_eq_true] using h0
          have hsz' : size x + 1 + sizeElems xs ≤ fuel := by
            have h0 : size (PyVal.list (x :: xs)) =
                1 + (size x + 1 + sizeElems xs) := by
              simp [size, sizeElems]
            omega
          split
          · rename_i r heq
            injection heq with h1 _
            exact absurd h1 hdne
          · rw [← List.cons_append, ← hds]
            have h2 := ih2 x xs [] t hwx.1 hwx.2 hsz'
            simpa using h2
      | dict kvs =>
        cases kvs with
        | nil =>
          rw [show ser (.dict []) ++ t = '\x7b' :: '\x7d' :: t by simp [ser],
            parseVal_obj, skipWs_not_ws _ _ (by decide)]
          rfl
        | cons kv kvs =>
          obtain ⟨k, v⟩ := kv
          rw [show ser (.dict ((k, v) :: kvs)) ++ t =
            '\x7b' :: (serMember (k, v) ++ (serMemberTail kvs ++ '\x7d' :: t))
            by simp [ser], parseVal_obj]
          have hexp : serMember (k, v) ++ (serMemberTail kvs ++ '\x7d' :: t) =
              '"' :: (escStr k ++ ('"' :: ':' :: ' ' ::
                (ser v ++ (serMemberTail kvs ++ '\x7d' :: t)))) := by
            simp [serMember]
          rw [hexp, skipWs_not_ws _ _ (by decide)]
          have hw0 : nodupKeysB ((k, v) :: kvs) = true ∧
              WFb v = true ∧ WFbMembers kvs = true := by
            have h0 : nodupKeysB ((k, v) :: kvs) = true ∧
                WFbMembers ((k, v) :: kvs) = true := by
              simpa [WFb, Bool.and_eq_true] using hwf
            refine ⟨h0.1, ?_, ?_⟩
            · have := h0.2
              simp only [WFbMembers, Bool.and_eq_true] at this
              exact this.1
            · have := h0.2
              simp only [WFbMembers, Bool.and_eq_true] at this
              exact this.2
          have hsz' : size v + 1 + sizeMembers kvs ≤ fuel := by
            have h0 : size (PyVal.dict ((k, v) :: kvs)) =
                1 + (size v + 1 + sizeMembers kvs) := by
              simp [size, sizeMembers]
            omega
          show parseMembers fuel ('"' :: (escStr k ++ ('"' :: ':' :: ' ' ::
            (ser v ++ (serMemberTail kvs ++ '\x7d' :: t))))) [] = _
          have h3 := ih3 k v kvs [] t hw0.2.1 hw0.2.2
            (by simpa using hw0.1) hsz'
          rw [hexp] at h3
          simpa using h3
    · intro x xs acc t hwx hwxs hsz
      conv_lhs => rw [parseElems]
      have hbR : numBoundaryOK (serTail xs ++ ']' :: t) := by
        cases xs with
        | nil =>
          intro c hc
          simp only [serTail, List.nil_append, List.head?_cons,
            Option.some.injEq] at hc
          subst hc
          exact ⟨by decide, by decide, by decide, by decide⟩
        | cons y ys =>
          intro c hc
          simp only [serTail, List.cons_append, List.head?_cons,
            Option.some.injEq] at hc
          subst hc
          exact ⟨by decide, by decide, by decide, by decide⟩
      rw [ih1 x (serTail xs ++ ']' :: t) hwx (by omega) hbR]
      simp only [Option.some_bind]
      cases xs with
      | nil =>
        simp only [serTail, List.nil_append]
        rw [skipWs_not_ws _ _ (by decide)]
        rfl
      | cons y ys =>
        simp only [serTail, List.cons_append, List.append_assoc]
        rw [skipWs_not_ws _ _ (by decide)]
        show parseElems fuel
          (' ' :: (ser y ++ (serTail ys ++ ']' :: t))) (acc ++ [x]) = _
        rw [parseElems_space]
        have hw' : WFb y = true ∧ WFbElems ys = true := by
          simpa [WFbElems, Bool.and_eq_true] using hwxs
        have hszy : size y + 1 + sizeElems ys ≤ fuel := by
          have hp := size_pos x
          have h0 : sizeElems (y :: ys) = size y + 1 + sizeElems ys := by
            simp [sizeElems]
          omega
        rw [ih2 y ys (acc ++ [x]) t hw'.1 hw'.2 hszy]
        simp [List.append_assoc]
    · intro k v kvs acc t hwv hwkvs hnd hsz
      have hexp : serMember (k, v) ++ (serMemberTail kvs ++ '\x7d' :: t) =
          '"' :: (escStr k ++ ('"' :: ':' :: ' ' ::
            (ser v ++ (serMemberTail kvs ++ '\x7d' :: t)))) := by
        simp [serMember]
      rw [hexp, parseMembers_quote,
        parseStrBody_escStr k
          (':' :: ' ' :: (ser v ++ (serMemberTail kvs ++ '\x7d' :: t)))]
      simp only [Option.some_bind]
      rw [skipWs_not_ws _ _ (by decide)]
      show (parseVal fuel
        (' ' :: (ser v ++ (serMemberTail kvs ++ '\x7d' :: t)))).bind _ = _
      rw [parseVal_space]
      have hbX : numBoundaryOK (serMemberTail kvs ++ '\x7d' :: t) := by
        cases kvs with
        | nil =>
          intro c hc
          simp only [serMemberTail, List.nil_append, List.head?_cons,
            Option.some.injEq] at hc
          subst hc
          exact ⟨by decide, by decide, by decide, by decide⟩
        | cons kv2 kvs2 =>
          intro c hc
          simp only [serMemberTail, List.cons_append, List.head?_cons,
            Option.some.injEq] at hc
          subst hc
          exact ⟨by decide, by decide, by decide, by decide⟩
      rw [ih1 v _ hwv (by omega) hbX]
      simp only [Option.some_bind]
      rw [show (String.mk k.data) = k from rfl]
      have hlk : lookupStr acc k = Option.none := nodup_lookup_left acc kvs k v hnd
      rw [dictInsert_of_lookup_none acc k v hlk]
      cases kvs with
      | nil =>
        simp only [serMemberTail, List.nil_append]
        rw [skipWs_not_ws _ _ (by decide)]
        rfl
      | cons kv2 kvs2 =>
        obtain ⟨k2, v2⟩ := kv2
        simp only [serMemberTail, List.cons_append, List.append_assoc]
        rw [skipWs_not_ws _ _ (by decide)]
        show parseMembers fuel
          (skipWs (' ' :: (serMember (k2, v2) ++
            (serMemberTail kvs2 ++ '\x7d' :: t)))) (acc ++ [(k, v)]) = _
        rw [skipWs_ws _ _ (by decide)]
        have hsm2 : serMember (k2, v2) ++ (serMemberTail kvs2 ++ '\x7d' :: t) =
            '"' :: (escStr k2 ++ ('"' :: ':' :: ' ' ::
              (ser v2 ++ (serMemberTail kvs2 ++ '\x7d' :: t)))) := by
          simp [serMember]
        rw [hsm2, skipWs_not_ws _ _ (by decide), ← hsm2]
        have hw2 : WFb v2 = true ∧ WFbMembers kvs2 = true := by
          simpa [WFbMembers, Bool.and_eq_true] using hwkvs
        have hnd2 : nodupKeysB ((acc ++ [(k, v)]) ++ (k2, v2) :: kvs2) = true := by
          rw [List.append_assoc, List.singleton_append]
          exact hnd
        have hsz2 : size v2 + 1 + sizeMembers kvs2 ≤ fuel := by
          have hp := size_pos v
          have h0 : sizeMembers ((k2, v2) :: kvs2) =
              size v2 + 1 + sizeMembers kvs2 := by
            simp [sizeMembers]
          omega
        rw [ih3 k2 v2 kvs2 (acc ++ [(k, v)]) t hw2.1 hw2.2 hnd2 hsz2]
        simp [List.append_assoc]

/-- `json.loads` inverts `json.dumps` on well-formed values. -/
theorem loads_dumps (v : PyVal) (hwf : WFb v = true) :
    loads (dumps v) = some v := by
  unfold loads
  rw [show (dumps v).data = ser v from rfl]
  have hb := size_le_ser v
  have h1 := (parse_ser (2 * (ser v).length + 2)).1 v [] hwf (by omega)
    (fun c hc => nomatch hc)
  rw [List.append_nil] at h1
  rw [h1]
  rfl

/-! ### Effect of the close-time git commands on the notes store -/

theorem lookupStr_overwrite_self (notes : List (String × String))
    (tgt msg : String) (h : (lookupStr notes tgt).isSome = true) :
    lookupStr (notes.map (fun p => if p.1 = tgt then (tgt, msg) else p)) tgt =
      some msg := by
  induction notes with
  | nil => exact nomatch h
  | cons p t ih =>
    obtain ⟨k, v⟩ := p
    simp only [lookupStr] at h
    simp only [List.map_cons]
    by_cases hk : k = tgt
    · rw [if_pos hk]
      simp only [lookupStr]
      simp
    · rw [if_neg hk] at h ⊢
      simp only [lookupStr]
      rw [if_neg hk]
      exact ih h

theorem lookupStr_overwrite_other (notes : List (String × String))
    (tgt msg ref : String) (h : tgt ≠ ref) :
    lookupStr (notes.map (fun p => if p.1 = tgt then (tgt, msg) else p)) ref =
      lookupStr notes ref := by
  induction notes with
  | nil => rfl
  | cons p t ih =>
    obtain ⟨k, v⟩ := p
    simp only [List.map_cons]
    by_cases hk : k = tgt
    · rw [if_pos hk]
      simp only [lookupStr]
      rw [if_neg h, if_neg (hk ▸ h)]
      exact ih
    · rw [if_neg hk]
      simp only [lookupStr]
      by_cases hr : k = ref
      · rw [if_pos hr, if_pos hr]
      · rw [if_neg hr, if_neg hr]
        exact ih

theorem lookupStr_filter_other (notes : List (String × String))
    (tgt ref : String) (h : tgt ≠ ref) :
    lookupStr (notes.filter (fun p => p.1 ≠ tgt)) ref =
      lookupStr notes ref := by
  induction notes with
  | nil => rfl
  | cons p t ih =>
    obtain ⟨k, v⟩ := p
    by_cases hk : k = tgt
    · rw [List.filter_cons_of_neg (by simp [hk])]
      simp only [lookupStr]
      rw [if_neg (hk ▸ h)]
      exact ih
    · rw [List.filter_cons_of_pos (by simp [hk])]
      simp only [lookupStr]
      by_cases hr : k = ref
      · rw [if_pos hr, if_pos hr]
      · rw [if_neg hr, if_neg hr]
        exact ih

theorem applyCmd_add_self (notes : List (String × String)) (msg ref : String) :
    lookupStr (applyCmd notes (.notesAddForce msg ref)) ref = some msg := by
  simp only [applyCmd]
  by_cases hp : (lookupStr notes ref).isSome = true
  · rw [if_pos hp]
    exact lookupStr_overwrite_self notes ref msg hp
  · rw [if_neg hp]
    have hn : lookupStr notes ref = Option.none := by
      cases hl : lookupStr notes ref with
      | none => rfl
      | some w => rw [hl] at hp; exact absurd rfl hp
    rw [lookupStr_append notes _ ref hn]
    simp [lookupStr]

theorem applyCmd_add_other (notes : List (String × String))
    (msg tgt ref : String) (h : tgt ≠ ref) :
    lookupStr (applyCmd notes (.notesAddForce msg tgt)) ref =
      lookupStr notes ref := by
  simp only [applyCmd]
  by_cases hp : (lookupStr notes tgt).isSome = true
  · rw [if_pos hp]
    exact lookupStr_overwrite_other notes tgt msg ref h
  · rw [if_neg hp]
    cases hl : lookupStr notes ref with
    | none =>
      rw [lookupStr_append notes _ ref hl]
      simp only [lookupStr]
      rw [if_neg h]
    | some w => exact lookupStr_append_left notes _ ref w hl

theorem applyCmd_flush_other (notes : List (String × String)) (r0 : RepoRef)
    (ref : String) (h : r0.ref ≠ ref) :
    lookupStr (applyCmd notes (flushCmd r0)) ref = lookupStr notes ref := by
  unfold flushCmd
  by_cases he : r0.note_kv.isEmpty = true
  · rw [if_pos he]
    exact lookupStr_filter_other notes r0.ref ref h
  · rw [if_neg he]
    exact applyCmd_add_other notes _ r0.ref ref h

theorem applyCmds_flush_untouched (t : List (String × RepoRef))
    (notes : List (String × String)) (ref : String)
    (h : ∀ p ∈ t, p.2.ref ≠ ref) :
    lookupStr (applyCmds notes (t.map (fun p => flushCmd p.2))) ref =
      lookupStr notes ref := by
  induction t generalizing notes with
  | nil => rfl
  | cons q tq ihq =>
    simp only [List.map_cons, applyCmds]
    have h1 : q.2.ref ≠ ref := h q (List.mem_cons_self q tq)
    have h2 : ∀ p ∈ tq, p.2.ref ≠ ref := fun p hp =>
      h p (List.mem_cons_of_mem q hp)
    rw [ihq _ h2]
    exact applyCmd_flush_other _ q.2 ref h1

theorem lookupStr_none_of_not_mem {α : Type} (l : List (String × α))
    (k : String) (h : k ∉ l.map Prod.fst) : lookupStr l k = Option.none := by
  induction l with
  | nil => rfl
  | cons p t ih =>
    obtain ⟨k0, v0⟩ := p
    simp only [List.map_cons, List.mem_cons] at h
    push_neg at h
    simp only [lookupStr]
    rw [if_neg (fun he => h.1 he.symm)]
    exact ih h.2

theorem lookupStr_of_mem_nodup {α : Type} (l : List (String × α))
    (p : String × α) (hnd : (l.map Prod.fst).Nodup) (hp : p ∈ l) :
    lookupStr l p.1 = some p.2 := by
  induction l with
  | nil => exact absurd hp (List.not_mem_nil p)
  | cons q t ih =>
    obtain ⟨k0, v0⟩ := q
    simp only [List.map_cons, List.nodup_cons] at hnd
    rw [List.mem_cons] at hp
    rcases hp with hp | hp
    · subst hp
      simp [lookupStr]
    · simp only [lookupStr]
      rw [if_neg ?hne]
      · exact ih hnd.2 hp
      case hne =>
        intro he
        exact hnd.1 (he ▸ List.mem_map_of_mem Prod.fst hp)

/-- After the close-time flush commands, the note attached to a cached
non-empty handle's reference is exactly the JSON serialization of its
document (the cache keys are distinct canonical identifiers and each handle
is stored under its own reference). -/
theorem applyCmds_exit_lookup (notes : List (String × String))
    (l : List (String × RepoRef)) (ref : String) (r : RepoRef)
    (hmem : lookupStr l ref = some r)
    (hconsist : ∀ id h, lookupStr l id = some h → h.ref = id)
    (hnd : (l.map Prod.fst).Nodup)
    (hne : r.note_kv ≠ []) :
    lookupStr (applyCmds notes (l.map (fun p => flushCmd p.2))) ref =
      some (dumps (.dict r.note_kv)) := by
  induction l generalizing notes with
  | nil => exact nomatch hmem
  | cons p t ih =>
    obtain ⟨k0, r0⟩ := p
    simp only [List.map_cons, applyCmds]
    simp only [List.map_cons, List.nodup_cons] at hnd
    by_cases hk : k0 = ref
    · have hr0 : r0 = r := by
        simp only [lookupStr] at hmem
        rw [if_pos hk] at hmem
        exact Option.some.inj hmem
      subst hr0
      have hrr : r0.ref = k0 := hconsist k0 r0 (by simp [lookupStr])
      have hie : r0.note_kv.isEmpty = false := by
        cases h' : r0.note_kv with
        | nil => exact absurd h' hne
        | cons a b => rfl
      have hfl : flushCmd r0 = .notesAddForce (dumps (.dict r0.note_kv)) r0.ref := by
        simp [flushCmd, hie]
      have hothers : ∀ p ∈ t, p.2.ref ≠ ref := by
        intro p hp hcon
        have hlp : lookupStr t p.1 = some p.2 :=
          lookupStr_of_mem_nodup t p hnd.2 hp
        have hk0p : k0 ≠ p.1 := by
          intro he
          rw [← he] at hlp
          rw [lookupStr_none_of_not_mem t k0 hnd.1] at hlp
          exact nomatch hlp
        have : p.2.ref = p.1 := hconsist p.1 p.2 (by
          simp only [lookupStr]
          rw [if_neg hk0p]
          exact hlp)
        rw [this] at hcon
        exact hk0p (hk.trans hcon.symm)
      rw [applyCmds_flush_untouched t _ ref hothers, hfl, hrr, hk]
      exact applyCmd_add_self notes (dumps (.dict r0.note_kv)) ref
    · have hmem' : lookupStr t ref = some r := by
        simp only [lookupStr] at hmem
        rwa [if_neg hk] at hmem
      have hconsist' : ∀ id h, lookupStr t id = some h → h.ref = id := by
        intro id h hl
        by_cases hid : k0 = id
        · rw [← hid] at hl
          rw [lookupStr_none_of_not_mem t k0 hnd.1] at hl
          exact nomatch hl
        · exact hconsist id h (by
            simp only [lookupStr]
            rw [if_neg hid]
            exact hl)
      exact ih (applyCmd notes (flushCmd r0)) hmem' hconsist' hnd.2

/-! ### Claim theorems (those not needing decoder correctness) -/

/-- C9: for every reference for which the external tool reports that no
note exists, `RepoRef` construction succeeds with an empty document; the
absence of a note is not an error. -/
theorem init_no_note_empty (git : GitState) (ref : String)
    (h : lookupStr git.notes ref = Option.none) :
    RepoRef.init git ref = .ok ⟨ref, []⟩ := by
  unfold RepoRef.init
  rw [h]

theorem init_no_note_empty_witness :
    lookupStr (GitState.mk true [("main", "abc")] []).notes "abc" =
      Option.none ∧
    RepoRef.init ⟨true, [("main", "abc")], []⟩ "abc" = .ok ⟨"abc", []⟩ :=
  ⟨rfl, init_no_note_empty ⟨true, [("main", "abc")], []⟩ "abc" rfl⟩

/-- C7: for every existing note whose content does not decode to a
top-level mapping (invalid JSON, or an array/scalar/null), `RepoRef`
construction fails with `MalformedNoteDataError` rather than silently
substituting an empty document. -/
theorem init_malformed_error (git : GitState) (ref content : String)
    (hnote : lookupStr git.notes ref = some content)
    (hbad : ∀ kvs, loads content ≠ some (.dict kvs)) :
    RepoRef.init git ref = .error .malformedNoteData := by
  cases hl : loads content with
  | none => simp [RepoRef.init, hnote, hl]
  | some v =>
    cases v with
    | dict kvs => exact absurd hl (hbad kvs)
    | str s => simp [RepoRef.init, hnote, hl]
    | int n => simp [RepoRef.init, hnote, hl]
    | bool b => simp [RepoRef.init, hnote, hl]
    | none => simp [RepoRef.init, hnote, hl]
    | list xs => simp [RepoRef.init, hnote, hl]

theorem init_malformed_error_witness :
    RepoRef.init ⟨true, [("main", "abc")], [("abc", "[1, 2]")]⟩ "abc" =
      .error .malformedNoteData ∧
    RepoRef.init ⟨true, [("main", "abc")], [("abc", "not json")]⟩ "abc" =
      .error .malformedNoteData :=
  ⟨init_malformed_error _ "abc" "[1, 2]" rfl
      (by
        intro kvs h
        rw [show loads "[1, 2]" = some (.list [.int 1, .int 2]) from rfl] at h
        exact nomatch h),
    init_malformed_error _ "abc" "not json" rfl
      (by
        intro kvs h
        rw [show loads "not json" = Option.none from rfl] at h
        exact nomatch h)⟩

/-- C4 (counterexample): `__contains__` is bare `key in self.note_kv`, so
an unhashable key such as a list raises `TypeError` — it is not the case
that Contains never raises and returns `false` for every non-string key. -/
theorem contains_unhashable_raises :
    RepoRef.contains ⟨"main", []⟩ (PyVal.list []) = .error .typeError ∧
    RepoRef.contains ⟨"main", []⟩ (PyVal.list []) ≠ .ok false :=
  ⟨rfl, by intro h; exact nomatch h⟩

/-- C4 (amended): Contains returns a boolean and never raises on hashable
keys; a non-string hashable key is simply not present (`false`); an
unhashable key (list or dict) raises `TypeError`. -/
theorem contains_amended (r : RepoRef) (key : PyVal) :
    (key.hashable = true → key.isStr = false → r.contains key = .ok false) ∧
    (∀ s, key = .str s →
      r.contains key = .ok (lookupStr r.note_kv s).isSome) ∧
    (key.hashable = false → r.contains key = .error .typeError) := by
  refine ⟨?_, ?_, ?_⟩
  · intro hh hs
    cases key <;> simp_all [RepoRef.contains, PyVal.hashable, PyVal.isStr]
  · rintro s rfl
    rfl
  · intro hh
    cases key <;> simp_all [RepoRef.contains, PyVal.hashable]

theorem contains_amended_witness :
    RepoRef.contains ⟨"m", [("a", PyVal.int 1)]⟩ (PyVal.int 7) = .ok false ∧
    RepoRef.contains ⟨"m", [("a", PyVal.int 1)]⟩ (PyVal.str "a") = .ok true ∧
    RepoRef.contains ⟨"m", [("a", PyVal.int 1)]⟩ (PyVal.dict []) =
      .error .typeError :=
  ⟨(contains_amended ⟨"m", [("a", PyVal.int 1)]⟩ (PyVal.int 7)).1 rfl rfl,
    by
      have h :=
        (contains_amended ⟨"m", [("a", PyVal.int 1)]⟩ (PyVal.str "a")).2.1
          "a" rfl
      simpa using h,
    (contains_amended ⟨"m", [("a", PyVal.int 1)]⟩ (PyVal.dict [])).2.2 rfl⟩

/-- C2 (counterexample): `__delitem__` has no string-key guard — deleting
with the non-string key `0` from a document raises `KeyError`, not the
`ValueError` that `__getitem__`/`__setitem__` raise for non-string keys. -/
theorem delitem_non_string_key_not_value_error :
    RepoRef.delitem ⟨"m", [("a", PyVal.int 1)]⟩ (PyVal.int 0) =
      (.error .keyError, ⟨"m", [("a", PyVal.int 1)]⟩) ∧
    (Except.error PyErr.keyError : Except PyErr Unit) ≠
      .error .valueError :=
  ⟨rfl, by intro h; exact nomatch h⟩

/-- C2 (amended): for every non-string key, `get` and `set` raise
`ValueError` (the `InvalidKeyTypeError` of the spec) and leave the document
unchanged; `delete` performs no type check — it leaves the document
unchanged but raises `KeyError` for a hashable non-string key (which is
never present among the string keys) and `TypeError` for an unhashable
one. -/
theorem key_type_guard_amended (r : RepoRef) (key value : PyVal)
    (h : key.isStr = false) :
    r.getitem key = .error .valueError ∧
    r.setitem key value = (.error .valueError, r) ∧
    (r.delitem key).2 = r ∧
    (key.hashable = true → (r.delitem key).1 = .error .keyError) ∧
    (key.hashable = false → (r.delitem key).1 = .error .typeError) := by
  cases key <;>
    simp_all [RepoRef.getitem, RepoRef.setitem, RepoRef.delitem,
      PyVal.isStr, PyVal.hashable]

theorem key_type_guard_amended_witness :
    RepoRef.getitem ⟨"m", [("a", PyVal.int 1)]⟩ (PyVal.int 0) =
      .error .valueError ∧
    RepoRef.setitem ⟨"m", [("a", PyVal.int 1)]⟩ (PyVal.int 0) PyVal.none =
      (.error .valueError, ⟨"m", [("a", PyVal.int 1)]⟩) ∧
    (RepoRef.delitem ⟨"m", [("a", PyVal.int 1)]⟩ (PyVal.int 0)).2 =
      ⟨"m", [("a", PyVal.int 1)]⟩ ∧
    (RepoRef.delitem ⟨"m", [("a", PyVal.int 1)]⟩ (PyVal.int 0)).1 =
      .error .keyError := by
  have h :=
    key_type_guard_amended ⟨"m", [("a", PyVal.int 1)]⟩ (PyVal.int 0)
      PyVal.none rfl
  exact ⟨h.1, h.2.1, h.2.2.1, h.2.2.2.1 rfl⟩

/-- C1: `Repo.__exit__` never issues a push — the trace of git invocations
at session close contains no `pushNotes` command even when the session's
`remote_push` flag is `true`, contradicting the spec and the docstrings of
`Repo` and `Repo.__exit__`. -/
theorem exit_never_pushes (path : String) (refs : List (String × RepoRef)) :
    (Repo.exitCmds ⟨⟨path, true⟩, refs⟩).countP
      (fun c => c matches GitCmd.pushNotes _) = 0 := by
  induction refs with
  | nil => rfl
  | cons p t ih =>
    have hflush : (fun c => c matches GitCmd.pushNotes _) (flushCmd p.2) =
        false := by
      unfold flushCmd
      split <;> rfl
    simp only [Repo.exitCmds, List.map_cons, List.countP_cons, hflush,
      cond_false] at ih ⊢
    simpa [Repo.exitCmds] using ih

/-- C3 (counterexample): with two cached handles, a failure while flushing
the first aborts `__exit__`'s loop — the second handle's flush command is
never attempted. -/
theorem close_fail_skips_remaining :
    runFlush (fun c => c matches GitCmd.notesAddForce _ "r1")
        [("r1", ⟨"r1", [("a", PyVal.int 1)]⟩),
         ("r2", ⟨"r2", [("b", PyVal.int 2)]⟩)] =
      ([GitCmd.notesAddForce (dumps (.dict [("a", PyVal.int 1)])) "r1"],
        some .gitCommandFailed) ∧
    flushCmd ⟨"r2", [("b", PyVal.int 2)]⟩ ∉
      [GitCmd.notesAddForce (dumps (.dict [("a", PyVal.int 1)])) "r1"] :=
  ⟨rfl, by decide⟩

/-- C3 (amended): `__exit__` flushes the cached handles in cache order and
is fail-fast: the handles before the first failing flush are flushed, the
failing flush is attempted and its error escapes, and the handles after it
are not attempted; when no flush fails every handle is flushed. -/
theorem close_fail_fast (fails : GitCmd → Bool) :
    (∀ (pre : List (String × RepoRef)) (k : String) (h : RepoRef)
      (t : List (String × RepoRef)),
      (∀ p ∈ pre, fails (flushCmd p.2) = false) →
      fails (flushCmd h) = true →
      runFlush fails (pre ++ (k, h) :: t) =
        (pre.map (fun p => flushCmd p.2) ++ [flushCmd h],
          some .gitCommandFailed)) ∧
    (∀ l : List (String × RepoRef),
      (∀ p ∈ l, fails (flushCmd p.2) = false) →
      runFlush fails l = (l.map (fun p => flushCmd p.2), Option.none)) := by
  constructor
  · intro pre k h t hpre hfail
    induction pre with
    | nil => simp [runFlush, hfail]
    | cons q qt ih =>
      have hq : fails (flushCmd q.2) = false := hpre q (List.mem_cons_self q qt)
      have hqt : ∀ p ∈ qt, fails (flushCmd p.2) = false := fun p hp =>
        hpre p (List.mem_cons_of_mem q hp)
      simp only [List.cons_append, runFlush, hq, Bool.false_eq_true,
        if_false, List.map_cons, List.append_eq]
      rw [ih hqt]
  · intro l hl
    induction l with
    | nil => rfl
    | cons q qt ih =>
      have hq : fails (flushCmd q.2) = false := hl q (List.mem_cons_self q qt)
      have hqt : ∀ p ∈ qt, fails (flushCmd p.2) = false := fun p hp =>
        hl p (List.mem_cons_of_mem q hp)
      simp only [runFlush, hq, Bool.false_eq_true, if_false, List.map_cons,
        List.append_eq]
      rw [ih hqt]

theorem close_fail_fast_witness :
    runFlush (fun c => c matches GitCmd.notesAddForce _ _)
        [("r0", ⟨"r0", []⟩), ("r1", ⟨"r1", [("a", PyVal.int 1)]⟩),
         ("r2", ⟨"r2", [("b", PyVal.int 2)]⟩)] =
      ([GitCmd.notesRemoveIgnoreMissing "r0",
        GitCmd.notesAddForce (dumps (.dict [("a", PyVal.int 1)])) "r1"],
        some .gitCommandFailed) ∧
    runFlush (fun _ => false) [("r0", ⟨"r0", []⟩)] =
      ([GitCmd.notesRemoveIgnoreMissing "r0"], Option.none) := by
  constructor
  · have h :=
      (close_fail_fast (fun c => c matches GitCmd.notesAddForce _ _)).1
        [("r0", ⟨"r0", []⟩)] "r1" ⟨"r1", [("a", PyVal.int 1)]⟩
        [("r2", ⟨"r2", [("b", PyVal.int 2)]⟩)]
        (by
          intro p hp
          rw [List.mem_singleton] at hp
          subst hp
          rfl)
        rfl
    simpa using h
  · have h :=
      (close_fail_fast (fun _ => false)).2 [("r0", ⟨"r0", []⟩)]
        (fun p _ => rfl)
    simpa using h

/-- The serialization of a non-empty dict is never the text of an empty
JSON object. -/
theorem dumps_cons_ne_empty_obj (kv : String × PyVal)
    (kvs : List (String × PyVal)) : dumps (.dict (kv :: kvs)) ≠ "\x7b\x7d" := by
  obtain ⟨k, v⟩ := kv
  intro h
  have hd := congrArg String.data h
  simp only [dumps, ser, serMember] at hd
  simp at hd

/-- C5: at close, every cached handle with a non-empty document gets a
forced note write of its JSON serialization, every cached handle with an
empty document gets a missing-tolerant note removal, and no note is ever
written as the JSON text of an empty object. -/
theorem close_flush_semantics (s : Session) (ref : String) (r : RepoRef)
    (hmem : (ref, r) ∈ s.active_refs) :
    (r.note_kv ≠ [] →
      GitCmd.notesAddForce (dumps (.dict r.note_kv)) r.ref ∈ Repo.exitCmds s) ∧
    (r.note_kv = [] →
      GitCmd.notesRemoveIgnoreMissing r.ref ∈ Repo.exitCmds s) ∧
    (∀ msg ref2,
      GitCmd.notesAddForce msg ref2 ∈ Repo.exitCmds s → msg ≠ "\x7b\x7d") := by
  have hflush : flushCmd r ∈ Repo.exitCmds s :=
    List.mem_map_of_mem (fun p => flushCmd p.2) hmem
  refine ⟨?_, ?_, ?_⟩
  · intro hne
    have hif : r.note_kv.isEmpty = false := by
      cases hkv : r.note_kv with
      | nil => exact absurd hkv hne
      | cons a t => rfl
    have : flushCmd r = .notesAddForce (dumps (.dict r.note_kv)) r.ref := by
      unfold flushCmd
      rw [hif]
      rfl
    rwa [this] at hflush
  · intro hemp
    have : flushCmd r = .notesRemoveIgnoreMissing r.ref := by
      unfold flushCmd
      rw [hemp]
      rfl
    rwa [this] at hflush
  · intro msg ref2 hmem'
    obtain ⟨p, hp, hcmd⟩ := List.mem_map.mp hmem'
    unfold flushCmd at hcmd
    cases hkv : p.2.note_kv with
    | nil =>
      rw [hkv] at hcmd
      exact nomatch hcmd
    | cons a t =>
      rw [hkv] at hcmd
      have hmsg : dumps (.dict (a :: t)) = msg := by
        have := GitCmd.notesAddForce.inj hcmd
        exact this.1
      intro hbad
      exact dumps_cons_ne_empty_obj a t (hmsg.trans hbad)

theorem close_flush_semantics_witness :
    GitCmd.notesAddForce (dumps (.dict [("a", PyVal.int 1)])) "r1" ∈
      Repo.exitCmds
        ⟨⟨"p", false⟩,
          [("r1", ⟨"r1", [("a", PyVal.int 1)]⟩), ("r2", ⟨"r2", []⟩)]⟩ ∧
    GitCmd.notesRemoveIgnoreMissing "r2" ∈
      Repo.exitCmds
        ⟨⟨"p", false⟩,
          [("r1", ⟨"r1", [("a", PyVal.int 1)]⟩), ("r2", ⟨"r2", []⟩)]⟩ := by
  constructor
  · exact
      (close_flush_semantics
          ⟨⟨"p", false⟩,
            [("r1", ⟨"r1", [("a", PyVal.int 1)]⟩), ("r2", ⟨"r2", []⟩)]⟩
          "r1" ⟨"r1", [("a", PyVal.int 1)]⟩
          (List.mem_cons_self _ _)).1
        (by intro h; exact nomatch h)
  · exact
      (close_flush_semantics
          ⟨⟨"p", false⟩,
            [("r1", ⟨"r1", [("a", PyVal.int 1)]⟩), ("r2", ⟨"r2", []⟩)]⟩
          "r2" ⟨"r2", []⟩
          (List.mem_cons_of_mem _ (List.mem_cons_self _ _))).2.1 rfl

/-- C10: when handle construction during a resolve fails (for example with
`MalformedNoteDataError`), the raise happens before the cache assignment:
the session is returned unchanged, and a subsequent resolve of the same
name performs the same fresh load attempt. -/
theorem getitem_error_preserves_session (git : GitState) (s : Session)
    (key ref : String) (e : PyErr)
    (hres : lookupStr git.resolveTbl key = some ref)
    (hmiss : lookupStr s.active_refs ref = Option.none)
    (hinit : RepoRef.init git ref = .error e) :
    Repo.getitem git s key = (.error e, s) ∧
    Repo.getitem git (Repo.getitem git s key).2 key = (.error e, s) := by
  have h1 : Repo.getitem git s key = (.error e, s) := by
    simp only [Repo.getitem, hres, hmiss, hinit]
  exact ⟨h1, by rw [h1, h1]⟩

theorem getitem_error_preserves_session_witness :
    Repo.getitem ⟨true, [("main", "abc")], [("abc", "[1, 2]")]⟩
        ⟨⟨"p", false⟩, []⟩ "main" =
      (.error .malformedNoteData, ⟨⟨"p", false⟩, []⟩) :=
  (getitem_error_preserves_session ⟨true, [("main", "abc")], [("abc", "[1, 2]")]⟩
      ⟨⟨"p", false⟩, []⟩ "main" "abc" .malformedNoteData rfl rfl rfl).1

/-- C6: the handle cache is keyed by the canonical identifier: if two names
resolve to the same canonical identifier and the first resolve produced the
handle `r1`, then resolving the second name returns that very handle and
leaves the session unchanged, and after any mutation of the shared handle
the second name observes the mutated handle. -/
theorem alias_identity (git : GitState) (s : Session) (n1 n2 ref : String)
    (r1 : RepoRef) (s1 : Session) (f : RepoRef → RepoRef)
    (h1 : lookupStr git.resolveTbl n1 = some ref)
    (h2 : lookupStr git.resolveTbl n2 = some ref)
    (hg : Repo.getitem git s n1 = (.ok r1, s1)) :
    Repo.getitem git s1 n2 = (.ok r1, s1) ∧
    Repo.getitem git (s1.mutateHandle ref f) n2 =
      (.ok (f r1), s1.mutateHandle ref f) := by
  have hcache : lookupStr s1.active_refs ref = some r1 := by
    have hg' := hg
    simp only [Repo.getitem, h1] at hg'
    cases hc : lookupStr s.active_refs ref with
    | some r =>
      rw [hc] at hg'
      have hg2 : ((Except.ok r : Except PyErr RepoRef), s) = (.ok r1, s1) := hg'
      injection hg2 with he hs
      injection he with hr
      subst hr
      subst hs
      exact hc
    | none =>
      rw [hc] at hg'
      cases hi : RepoRef.init git ref with
      | error e =>
        rw [hi] at hg'
        exact nomatch hg'
      | ok r =>
        rw [hi] at hg'
        have hg2 :
            ((Except.ok r : Except PyErr RepoRef),
              { s with active_refs := s.active_refs ++ [(ref, r)] }) =
              (.ok r1, s1) := hg'
        injection hg2 with he hs
        injection he with hr
        subst hr
        subst hs
        show lookupStr (s.active_refs ++ [(ref, r)]) ref = some r
        rw [lookupStr_append _ _ _ hc]
        simp [lookupStr]
  constructor
  · simp only [Repo.getitem, h2, hcache]
  · have hm := lookupStr_mutateEntries s1.active_refs ref r1 f hcache
    simp only [Repo.getitem, Session.mutateHandle, h2]
    rw [hm]

theorem alias_identity_witness :
    Repo.getitem ⟨true, [("main", "abc"), ("abc", "abc")], []⟩
        (Session.mutateHandle ⟨⟨"p", false⟩, [("abc", ⟨"abc", []⟩)]⟩ "abc"
          (fun r => { r with note_kv := dictInsert r.note_kv "k" (.int 1) }))
        "abc" =
      (.ok ⟨"abc", [("k", PyVal.int 1)]⟩,
        Session.mutateHandle ⟨⟨"p", false⟩, [("abc", ⟨"abc", []⟩)]⟩ "abc"
          (fun r => { r with note_kv := dictInsert r.note_kv "k" (.int 1) })) := by
  have h :=
    (alias_identity ⟨true, [("main", "abc"), ("abc", "abc")], []⟩
        ⟨⟨"p", false⟩, []⟩ "main" "abc" "abc" ⟨"abc", []⟩
        ⟨⟨"p", false⟩, [("abc", ⟨"abc", []⟩)]⟩
        (fun r => { r with note_kv := dictInsert r.note_kv "k" (.int 1) })
        rfl rfl rfl).2
  simpa using h

/-- C8: round-trip.  A session `s` holds a cached handle for canonical
reference `ref` whose in-memory document is the non-empty well-formed
mapping `kvs` (every dict inside has pairwise-distinct keys); the session
cache is consistent (each handle is stored under its own canonical
reference, and the cache keys are pairwise distinct).  Closing the session
applies the `Repo.__exit__` flush commands to the notes store; reopening a
session on the same repository and resolving a name that maps to the same
reference yields a handle whose document equals `kvs` exactly. -/
theorem close_reopen_roundtrip (git : GitState) (s : Session)
    (name ref : String) (kvs : List (String × PyVal))
    (hres : lookupStr git.resolveTbl name = some ref)
    (hmem : lookupStr s.active_refs ref = some ⟨ref, kvs⟩)
    (hne : kvs ≠ [])
    (hwf : WFb (.dict kvs) = true)
    (hconsist : ∀ id h, lookupStr s.active_refs id = some h → h.ref = id)
    (hnd : (s.active_refs.map Prod.fst).Nodup) :
    Repo.getitem
      { git with notes := applyCmds git.notes (Repo.exitCmds s) }
      ⟨s.repo, []⟩ name =
      (.ok ⟨ref, kvs⟩, ⟨s.repo, [(ref, ⟨ref, kvs⟩)]⟩) := by
  have hnotes : lookupStr (applyCmds git.notes (Repo.exitCmds s)) ref =
      some (dumps (.dict kvs)) :=
    applyCmds_exit_lookup git.notes s.active_refs ref ⟨ref, kvs⟩
      hmem hconsist hnd hne
  have hld := loads_dumps (.dict kvs) hwf
  have hinit : RepoRef.init
      { git with notes := applyCmds git.notes (Repo.exitCmds s) } ref =
      .ok ⟨ref, kvs⟩ := by
    simp only [RepoRef.init, hnotes, hld]
  simp only [Repo.getitem, hres, lookupStr, hinit, List.nil_append]

theorem close_reopen_roundtrip_witness :
    Repo.getitem
      { (⟨true, [("main", "abc"), ("abc", "abc")], []⟩ : GitState) with
        notes := applyCmds
          (⟨true, [("main", "abc"), ("abc", "abc")], []⟩ : GitState).notes
          (Repo.exitCmds ⟨⟨"p", false⟩,
            [("abc", ⟨"abc", [("build_status", PyVal.str "passing")]⟩)]⟩) }
      ⟨⟨"p", false⟩, []⟩ "main" =
      (.ok ⟨"abc", [("build_status", PyVal.str "passing")]⟩,
        ⟨⟨"p", false⟩,
          [("abc", ⟨"abc", [("build_status", PyVal.str "passing")]⟩)]⟩) :=
  close_reopen_roundtrip
    ⟨true, [("main", "abc"), ("abc", "abc")], []⟩
    ⟨⟨"p", false⟩, [("abc", ⟨"abc", [("build_status", PyVal.str "passing")]⟩)]⟩
    "main" "abc" [("build_status", PyVal.str "passing")]
    rfl rfl (fun hc => nomatch hc) rfl
    (by
      intro id h hl
      simp only [lookupStr] at hl
      split at hl
      · rename_i heq
        injection hl with hh
        subst hh
        exact heq
      · exact nomatch hl)
    (by simp)

end GitNoteKV
